import Mathlib

/-!
Verification of the delocate library-vendoring tool (`delocating.py`,
`libsana.py`) against its natural-language specification.

Shallow embedding conventions:

* An absolute filesystem path is a list of its components
  (`/a/b/c` is `["a", "b", "c"]`).
* A recorded install name (dependency reference string) is either an
  opaque loader-relative reference starting with `@`
  (`Ref.at_ ["loader_path", "x"]` renders as `@loader_path/x`) or an
  absolute path (`Ref.abs p`).  The source code distinguishes exactly
  these two cases with `required.startswith('@')`.
* Python dicts are insertion-ordered; they are embedded as association
  lists where assignment updates the first matching key in place and
  appends fresh keys at the end (`dupdate`), and lookup takes the first
  match (`alook`).
* The filesystem is an explicit state: an association list of files
  (each holding its ordered install names and an opaque content tag
  preserved by `shutil.copy2`), a list of directories (for
  `os.makedirs` / `os.listdir` / `shutil.rmtree`), and a symlink table
  through which `os.path.realpath` resolves.
* Fallible operations return `Except Err` values; functions that mutate
  the filesystem before a possible exception return the partially
  updated state alongside the error, mirroring Python exception
  semantics.
-/

namespace Delocate

/-- An absolute path, as its list of components. -/
abbrev Path := List String

/-- A dependency reference string: either an opaque `@`-reference
(`@loader_path/...`, `@rpath/...`, ...) kept verbatim, or an absolute
path.  The source distinguishes the two with `startswith('@')`. -/
inductive Ref where
  | at_ : List String → Ref
  | abs : Path → Ref
deriving DecidableEq, Repr

/-- `Ref.isAt r` is the embedding of `r.startswith('@')`. -/
def Ref.isAt : Ref → Bool
  | .at_ _ => true
  | .abs _ => false

/-- `os.path.basename` on a path given as components. -/
def basename : Path → String
  | [] => ""
  | [a] => a
  | _ :: rest => basename rest

/-- `os.path.dirname` on a path given as components. -/
def dirname (p : Path) : Path := p.dropLast

/-- `os.path.join dir base` for a single extra component. -/
def pjoin (d : Path) (b : String) : Path := d ++ [b]

/-- Auxiliary for `os.path.relpath`: strip the longest common prefix,
then climb with `..` components. -/
def relAux : Path → Path → Path
  | a :: as, b :: bs =>
      if a = b then relAux as bs
      else List.replicate (bs.length + 1) ".." ++ (a :: as)
  | as, bs => List.replicate bs.length ".." ++ as

/-- `os.path.relpath p start` on component lists (`.` for equal paths). -/
def relpathComps (p start : Path) : Path :=
  let r := relAux p start
  if r = [] then ["."] else r

/-- Python `s.startswith(pre)`, computed on the character lists. -/
def strStarts (pre s : String) : Bool :=
  List.isPrefixOf pre.data s.data

/-- Python `s.endswith(suf)`, computed on the character lists. -/
def strEnds (suf s : String) : Bool :=
  List.isSuffixOf suf.data s.data

/-- The test `relpath(required, root_path).startswith('..')` of
`delocate_tree_libs`: the first component of the relative path starts
with the two characters `..` (string prefix test, as in Python). -/
def relStartsDotDot (p root : Path) : Bool :=
  match (relpathComps p root).head? with
  | some c => strStarts ".." c
  | none => false

/-- Boolean path-prefix test (is `a` an initial segment of `b`). -/
def isPre : Path → Path → Bool
  | [], _ => true
  | _ :: _, [] => false
  | a :: as, b :: bs => if a = b then isPre as bs else false

/-- First-match lookup in an association list (Python dict lookup). -/
def alook {α β : Type} [DecidableEq α] : List (α × β) → α → Option β
  | [], _ => none
  | (k, v) :: rest, a => if k = a then some v else alook rest a

/-- Python dict assignment `d[a] = b`: update the first matching key in
place, append at the end when the key is fresh. -/
def dupdate {α β : Type} [DecidableEq α] : List (α × β) → α → β → List (α × β)
  | [], a, b => [(a, b)]
  | (k, v) :: rest, a, b =>
      if k = a then (a, b) :: rest else (k, v) :: dupdate rest a b

/-- File payload: the ordered list of recorded install names (the
dependency reference table of a Mach-O binary; empty for plain files)
and an opaque content/metadata tag, both preserved by `shutil.copy2`. -/
structure FileData where
  names : List Ref
  tag : Nat
deriving DecidableEq, Repr

/-- Filesystem state: files keyed by canonical path, directories, and a
symlink table through which `os.path.realpath` resolves. -/
structure FS where
  files : List (Path × FileData)
  dirs : List Path
  links : List (Path × Path)
deriving DecidableEq, Repr

/-- `os.path.realpath`: resolve through the symlink table, or return
the path unchanged (canonicalization of a nonexistent path succeeds). -/
def realpath (fs : FS) (p : Path) : Path := (alook fs.links p).getD p

/-- Look a file up by path, resolving symlinks like the OS does. -/
def FS.lookup (fs : FS) (p : Path) : Option FileData :=
  alook fs.files (realpath fs p)

/-- `os.path.exists`: true for a file or a directory (after following
symlinks). -/
def FS.existsPath (fs : FS) (p : Path) : Bool :=
  (fs.lookup p).isSome || decide (realpath fs p ∈ fs.dirs)

/-- Error taxonomy of the embedded code: every `raise` site of
`delocating.py` plus the failure modes of the external collaborators
described in spec section 6 (rewrite failures, missing copy sources,
Python `TypeError` from `dict | set`, missing directories/archives). -/
inductive Err where
  | basenameCollision
  | missingLibrary
  | preexistingLibDir
  | recordShape
  | rewriteError
  | copyMissing
  | typeError
  | listdirMissing
  | zipMissing
deriving DecidableEq, Repr

deriving instance DecidableEq for Except

/-- Modelled from the spec: `tools.get_install_names` (the Reference
Extractor collaborator, absent from the sources) returns the ordered
dependency reference strings recorded in a binary; a path that is not a
recognized file yields no references. -/
def get_install_names (fs : FS) (p : Path) : List Ref :=
  ((fs.lookup p).map FileData.names).getD []

/-- Modelled from the spec: `tools.set_install_name` (the Reference
Extractor collaborator, absent from the sources) rewrites one recorded
reference in place and fails with a rewrite error when the file is not
a recognized binary or the old reference is not currently recorded. -/
def set_install_name (fs : FS) (p : Path) (old new : Ref) : Except Err FS :=
  match fs.lookup p with
  | none => .error .rewriteError
  | some fd =>
      if old ∈ fd.names then
        .ok { fs with
              files := dupdate fs.files (realpath fs p)
                { fd with names := fd.names.map fun n => if n = old then new else n } }
      else .error .rewriteError

/-- `shutil.copy2 src dstDir`: copy the file (content, metadata and its
recorded references) to `dstDir/basename(src)`; fails when the source
does not exist. -/
def copy2 (fs : FS) (src : Path) (dstDir : Path) : Except Err FS :=
  match fs.lookup src with
  | none => .error .copyMissing
  | some fd =>
      .ok { fs with files := dupdate fs.files (realpath fs (pjoin dstDir (basename src))) fd }

/-- `os.makedirs`. -/
def makedirs (fs : FS) (p : Path) : FS := { fs with dirs := fs.dirs ++ [p] }

/-- True when `os.listdir p` would return an empty listing: nothing is
stored strictly below `p`. -/
def dirEmpty (fs : FS) (p : Path) : Bool :=
  (fs.files.filter fun f => isPre p f.1 && decide (f.1 ≠ p)).isEmpty
    && (fs.dirs.filter fun d => isPre p d && decide (d ≠ p)).isEmpty

/-- `shutil.rmtree p`: remove `p` and everything below it. -/
def rmtree (fs : FS) (p : Path) : FS :=
  { fs with
    files := fs.files.filter fun f => !isPre p f.1
    dirs := fs.dirs.filter fun d => !isPre p d }

/-- The files `os.walk start_path` reaches: the stored files strictly
below `start_path`, in storage order. -/
def walkFiles (fs : FS) (start : Path) : List (Path × FileData) :=
  fs.files.filter fun f => isPre start f.1 && decide (f.1 ≠ start)

/-- Apply an optional inspection filter exactly as the source does
(`if not filt_func is None and not filt_func(path): continue`). -/
def passFilt (filt : Option (Path → Bool)) (p : Path) : Bool :=
  match filt with
  | none => true
  | some f => f p

/-- The Library Identity under which `tree_libs` records a reference:
verbatim for `@`-references, `realpath` otherwise (libsana.py lines
55-56). -/
def refIdentity (fs : FS) : Ref → Ref
  | .at_ s => .at_ s
  | .abs p => .abs (realpath fs p)

/-- The dependency graph: required Library Identity mapping to the dict
of (depending file, recorded reference string), both dicts in Python
insertion order. -/
abbrev Inner := List (Path × Ref)

abbrev LibDict := List (Ref × Inner)

/-- One recording step of `tree_libs` (libsana.py lines 57-60):
`lib_dict[identity][depender] = install_name`. -/
def recordName (fs : FS) (d : LibDict) (depender : Path) (name : Ref) : LibDict :=
  match alook d (refIdentity fs name) with
  | some inner => dupdate d (refIdentity fs name) (dupdate inner depender name)
  | none => d ++ [(refIdentity fs name, [(depender, name)])]

/-- `libsana.tree_libs`: walk the tree, apply the inspection filter to
the canonical file path, and record every install name under its
Library Identity. -/
def tree_libs (fs : FS) (start : Path) (filt : Option (Path → Bool)) : LibDict :=
  (walkFiles fs start).foldl
    (fun d pf =>
      let depender := realpath fs pf.1
      if passFilt filt depender then
        (get_install_names fs pf.1).foldl (fun d2 n => recordName fs d2 depender n) d
      else d)
    []

/-- Nested lookup `graph[k][d]` in a dependency graph. -/
def lookup2 (d : LibDict) (k : Ref) (dep : Path) : Option Ref :=
  (alook d k).bind fun inner => alook inner dep

/-- The flat stream of observations `tree_libs` makes, in walk order:
for each inspected file and each of its references, the pair (canonical
depending path, verbatim reference). -/
def treeObs (fs : FS) (start : Path) (filt : Option (Path → Bool)) :
    List (Path × Ref) :=
  (walkFiles fs start).flatMap fun pf =>
    if passFilt filt (realpath fs pf.1) then
      (get_install_names fs pf.1).map fun n => (realpath fs pf.1, n)
    else []

/-- Record one observation pair. -/
def recordObs (fs : FS) (d : LibDict) (o : Path × Ref) : LibDict :=
  recordName fs d o.1 o.2

/-- Does observation `o` concern the graph cell `(k, x)`? -/
def obsAt (fs : FS) (k : Ref) (x : Path) (o : Path × Ref) : Bool :=
  decide (refIdentity fs o.2 = k) && decide (o.1 = x)

lemma alook_dupdate {α β : Type} [DecidableEq α] (l : List (α × β)) (a : α) (b : β)
    (a' : α) :
    alook (dupdate l a b) a' = if a = a' then some b else alook l a' := by
  induction l with
  | nil => simp [dupdate, alook]
  | cons kv rest ih =>
      obtain ⟨k, v⟩ := kv
      by_cases hk : k = a
      · subst hk
        by_cases h : k = a' <;> simp [dupdate, alook, h]
      · by_cases h : k = a'
        · subst h
          simp [dupdate, alook, hk, if_neg (fun hh : a = k => hk hh.symm)]
        · simp [dupdate, alook, hk, h, ih]

lemma alook_append_single {α β : Type} [DecidableEq α] (l : List (α × β)) (a : α)
    (b : β) (a' : α) :
    alook (l ++ [(a, b)]) a' =
      match alook l a' with
      | some v => some v
      | none => if a = a' then some b else none := by
  induction l with
  | nil => simp [alook]
  | cons kv rest ih =>
      obtain ⟨k, v⟩ := kv
      by_cases h : k = a' <;> simp [alook, h, ih]

lemma lookup2_recordName (fs : FS) (d : LibDict) (dep : Path) (n : Ref) (k : Ref)
    (x : Path) :
    lookup2 (recordName fs d dep n) k x =
      if refIdentity fs n = k ∧ dep = x then some n else lookup2 d k x := by
  cases h : alook d (refIdentity fs n) with
  | some inner =>
      have hrec : recordName fs d dep n
          = dupdate d (refIdentity fs n) (dupdate inner dep n) := by
        simp [recordName, h]
      rw [hrec]
      unfold lookup2
      rw [alook_dupdate]
      by_cases hk : refIdentity fs n = k
      · subst hk
        simp only [if_pos rfl, Option.bind_some, alook_dupdate, h]
        by_cases hx : dep = x <;> simp [hx, alook_dupdate]
      · simp [hk]
  | none =>
      have hrec : recordName fs d dep n
          = d ++ [(refIdentity fs n, [(dep, n)])] := by
        simp [recordName, h]
      rw [hrec]
      unfold lookup2
      rw [alook_append_single]
      by_cases hk : refIdentity fs n = k
      · subst hk
        simp only [h, if_pos rfl]
        by_cases hx : dep = x <;> simp [hx, alook]
      · cases halt : alook d k <;> simp [hk, halt]

lemma lookup2_foldl_recordObs (fs : FS) (obs : List (Path × Ref)) (d : LibDict)
    (k : Ref) (x : Path) :
    lookup2 (obs.foldl (recordObs fs) d) k x =
      match (obs.filter (obsAt fs k x)).getLast? with
      | some o => some o.2
      | none => lookup2 d k x := by
  induction obs using List.reverseRecOn with
  | nil => simp
  | append_singleton l o ih =>
      rw [List.foldl_append, List.foldl_cons, List.foldl_nil, List.filter_append]
      rw [show recordObs fs (List.foldl (recordObs fs) d l) o
            = recordName fs (List.foldl (recordObs fs) d l) o.1 o.2 from rfl,
          lookup2_recordName]
      by_cases ho : obsAt fs k x o = true
      · have hfil : List.filter (obsAt fs k x) [o] = [o] := by simp [ho]
        have hcond : refIdentity fs o.2 = k ∧ o.1 = x := by
          unfold obsAt at ho
          simpa using ho
        rw [if_pos hcond, hfil, List.getLast?_concat]
      · have hfil : List.filter (obsAt fs k x) [o] = [] := by
          simp [List.filter, ho]
        have hcond : ¬(refIdentity fs o.2 = k ∧ o.1 = x) := by
          intro ⟨h1, h2⟩
          exact ho (by simp [obsAt, h1, h2])
        rw [if_neg hcond, hfil, List.append_nil, ih]

lemma tree_libs_eq_foldl_obs (fs : FS) (start : Path) (filt : Option (Path → Bool)) :
    tree_libs fs start filt = (treeObs fs start filt).foldl (recordObs fs) [] := by
  unfold tree_libs treeObs
  generalize walkFiles fs start = l
  suffices h : ∀ (d : LibDict),
      l.foldl
        (fun d pf =>
          let depender := realpath fs pf.1
          if passFilt filt depender then
            (get_install_names fs pf.1).foldl (fun d2 n => recordName fs d2 depender n) d
          else d) d
      = (l.flatMap fun pf =>
          if passFilt filt (realpath fs pf.1) then
            (get_install_names fs pf.1).map fun n => (realpath fs pf.1, n)
          else []).foldl (recordObs fs) d from h []
  induction l with
  | nil => intro d; simp
  | cons pf rest ih =>
      intro d
      simp only [List.foldl_cons, List.flatMap_cons, List.foldl_append]
      by_cases hf : passFilt filt (realpath fs pf.1)
      · simp only [hf, if_pos]
        rw [ih]
        congr 1
        generalize get_install_names fs pf.1 = ns
        induction ns generalizing d with
        | nil => simp
        | cons n ns ihn =>
            simp only [List.foldl_cons, List.map_cons, recordObs]
            rw [ihn]
      · rw [if_neg hf, if_neg hf, List.foldl_nil]
        exact ih d

/-- C6.  `tree_libs` records, for every inspected file and each of its
recorded references, `graph[identity][realpath(file)] = reference`,
where the identity is the reference verbatim when it starts with `@`
and `realpath(reference)` otherwise (this is `refIdentity`, used by
`obsAt` to locate the graph cell an observation lands in); it never
fails (it is a total function, so a reference naming a nonexistent path
is recorded under its literal canonical path), and when the same
(required, depending) pair is observed more than once the most recently
observed reference string is the one kept: the nested lookup returns
exactly the last matching observation of the walk. -/
theorem tree_libs_records_last_observation
    (fs : FS) (start : Path) (filt : Option (Path → Bool)) (k : Ref) (x : Path) :
    lookup2 (tree_libs fs start filt) k x =
      ((treeObs fs start filt).filter (obsAt fs k x)).getLast?.map (fun o => o.2) := by
  rw [tree_libs_eq_foldl_obs, lookup2_foldl_recordObs]
  cases h : ((treeObs fs start filt).filter (obsAt fs k x)).getLast? with
  | some o => simp
  | none => simp [lookup2, alook]

/-- One value of the Copied-Library Index, with the Python runtime type
it actually has: `delocate_tree_libs` stores the requiring dict itself
(depending file mapping to recorded install name), whereas
`_copy_required` stores Python sets of depending files. -/
inductive DepVal where
  | dictV : Inner → DepVal
  | setV : List Path → DepVal
deriving DecidableEq, Repr

/-- The Python expression `v | w` on index values: set union (ordered,
deduplicated) when both operands are sets, a `TypeError` otherwise
(`dict | set` and `set | dict` are unsupported operand types). -/
def DepVal.union : DepVal → DepVal → Except Err DepVal
  | .setV a, .setV b => .ok (.setV (a ++ b.filter fun x => decide (x ∉ a)))
  | _, _ => .error .typeError

/-- The Copied-Library Index: original (pre-copy) library path mapping
to its observed dependers, in Python dict insertion order. -/
abbrev Copied := List (Path × DepVal)

/-- The install name written for a copied library into a requiring file
(delocating.py lines 89-92):
`@loader_path/relpath(lib_path, dirname(requiring))/basename(required)`. -/
def loaderCopyRef (lib_path requiring p : Path) : Ref :=
  .at_ ("loader_path" :: (relpathComps lib_path (dirname requiring) ++ [basename p]))

/-- The install name written for an in-tree library into a requiring
file (lines 96-98): `@loader_path/relpath(required, dirname(requiring))`. -/
def loaderRelinkRef (p requiring : Path) : Ref :=
  .at_ ("loader_path" :: relpathComps p (dirname requiring))

/-- The validation pass of `delocate_tree_libs` (lines 64-83): walk the
graph in order, skip `@`-references with a warning, classify the rest
as to-copy (outside `root_path`) or to-relink, and fail fast on a
basename collision among planned copies or on a missing library —
before any filesystem mutation. -/
def planTree (fs : FS) (root : Path) :
    List (Ref × Inner) → List String → List (Path × Inner) → List Path →
    Except Err (List (Path × Inner) × List Path)
  | [], _, copied, deloc => .ok (copied, deloc)
  | (req, rs) :: rest, bnames, copied, deloc =>
      match req with
      | .at_ _ => planTree fs root rest bnames copied deloc
      | .abs p =>
          if relStartsDotDot p root then
            if basename p ∈ bnames then .error .basenameCollision
            else if !(fs.existsPath p) then .error .missingLibrary
            else planTree fs root rest (bnames ++ [basename p]) (copied ++ [(p, rs)]) deloc
          else planTree fs root rest bnames copied (deloc ++ [p])

/-- The shared shape of the two rewrite loops of `delocate_tree_libs`
(lines 88-92 and 95-98): walk the requiring files of one required
library in dict order and rewrite each one's recorded reference `old`
to the loader-relative name `newRef requiring`, stopping at the first
failing rewrite with the partially updated state. -/
def rewriteList (old : Ref) (newRef : Path → Ref) : FS → List (Path × Ref) → FS × Except Err Unit
  | fs, [] => (fs, .ok ())
  | fs, (requiring, _) :: rest =>
      match set_install_name fs requiring old (newRef requiring) with
      | .error e => (fs, .error e)
      | .ok fs2 => rewriteList old newRef fs2 rest

/-- The copy loop of `delocate_tree_libs` (lines 85-92): copy each
planned library into `lib_path`, then point its requiring files at the
copy. -/
def execCopied (lib_path : Path) : FS → List (Path × Inner) → FS × Except Err Unit
  | fs, [] => (fs, .ok ())
  | fs, (p, rs) :: rest =>
      match copy2 fs p lib_path with
      | .error e => (fs, .error e)
      | .ok fs2 =>
          match rewriteList (.abs p) (fun requiring => loaderCopyRef lib_path requiring p) fs2 rs with
          | (fs3, .error e) => (fs3, .error e)
          | (fs3, .ok _) => execCopied lib_path fs3 rest

/-- The relink loop of `delocate_tree_libs` (lines 93-98): for each
local library, point its requiring files at its own location by a
relative path, copying nothing. -/
def execRelink (lib_dict : LibDict) : FS → List Path → FS × Except Err Unit
  | fs, [] => (fs, .ok ())
  | fs, p :: rest =>
      match rewriteList (.abs p) (fun requiring => loaderRelinkRef p requiring) fs
          ((alook lib_dict (.abs p)).getD []) with
      | (fs2, .error e) => (fs2, .error e)
      | (fs2, .ok _) => execRelink lib_dict fs2 rest

/-- `delocating.delocate_tree_libs`: validate the whole plan first
(returning the state unchanged on a planning error), then copy external
libraries into `lib_path` and rewrite all requiring references.  The
returned index maps each copied library to the requiring dict taken
verbatim from `lib_dict` (a Python dict, not a set). -/
def delocate_tree_libs (fs : FS) (lib_dict : LibDict) (lib_path root_path : Path) :
    FS × Except Err Copied :=
  match planTree fs root_path lib_dict [] [] [] with
  | .error e => (fs, .error e)
  | .ok (copied, deloc) =>
      match execCopied lib_path fs copied with
      | (fs2, .error e) => (fs2, .error e)
      | (fs2, .ok _) =>
          match execRelink lib_dict fs2 deloc with
          | (fs3, .error e) => (fs3, .error e)
          | (fs3, .ok _) => (fs3, .ok (copied.map fun c => (c.1, DepVal.dictV c.2)))

/-- A planning hazard in graph suffix `l` given already-claimed
basenames `bn`: an external library whose basename is already claimed,
two distinct external libraries sharing a basename, or an external
library missing from disk. -/
def PlanHazard (fs : FS) (root : Path) (l : List (Ref × Inner)) (bn : List String) : Prop :=
  (∃ p rs, (Ref.abs p, rs) ∈ l ∧ relStartsDotDot p root = true ∧ basename p ∈ bn)
  ∨ (∃ p q rsp rsq, (Ref.abs p, rsp) ∈ l ∧ (Ref.abs q, rsq) ∈ l ∧ p ≠ q ∧
      relStartsDotDot p root = true ∧ relStartsDotDot q root = true ∧
      basename p = basename q)
  ∨ (∃ p rs, (Ref.abs p, rs) ∈ l ∧ relStartsDotDot p root = true ∧
      fs.existsPath p = false)

lemma planTree_hazard_error (fs : FS) (root : Path) :
    ∀ (l : List (Ref × Inner)) (bn : List String) (cp : List (Path × Inner))
      (dl : List Path), PlanHazard fs root l bn →
      ∃ e, planTree fs root l bn cp dl = .error e := by
  intro l
  induction l with
  | nil =>
      intro bn cp dl hbad
      rcases hbad with ⟨p, rs, hm, _⟩ | ⟨p, q, rsp, rsq, hm, _⟩ | ⟨p, rs, hm, _⟩ <;>
        simp at hm
  | cons kv rest ih =>
      intro bn cp dl hbad
      obtain ⟨req, rs0⟩ := kv
      match req with
      | .at_ s =>
          refine ih bn cp dl ?_
          rcases hbad with ⟨p, rs, hm, h1, h2⟩ | ⟨p, q, rsp, rsq, hmp, hmq, hpq, h1, h2, h3⟩
            | ⟨p, rs, hm, h1, h2⟩
          · rcases List.mem_cons.mp hm with heq | hm'
            · exact absurd heq (by simp)
            · exact Or.inl ⟨p, rs, hm', h1, h2⟩
          · rcases List.mem_cons.mp hmp with heqp | hmp'
            · exact absurd heqp (by simp)
            · rcases List.mem_cons.mp hmq with heqq | hmq'
              · exact absurd heqq (by simp)
              · exact Or.inr (Or.inl ⟨p, q, rsp, rsq, hmp', hmq', hpq, h1, h2, h3⟩)
          · rcases List.mem_cons.mp hm with heq | hm'
            · exact absurd heq (by simp)
            · exact Or.inr (Or.inr ⟨p, rs, hm', h1, h2⟩)
      | .abs p0 =>
          by_cases hext : relStartsDotDot p0 root = true
          · by_cases hbn : basename p0 ∈ bn
            · exact ⟨.basenameCollision, by simp [planTree, hext, hbn]⟩
            · by_cases hex : fs.existsPath p0 = true
              · have hstep : planTree fs root ((Ref.abs p0, rs0) :: rest) bn cp dl
                    = planTree fs root rest (bn ++ [basename p0]) (cp ++ [(p0, rs0)]) dl := by
                  simp [planTree, hext, hbn, hex]
                rw [hstep]
                refine ih (bn ++ [basename p0]) (cp ++ [(p0, rs0)]) dl ?_
                rcases hbad with ⟨p, rs, hm, h1, h2⟩ | ⟨p, q, rsp, rsq, hmp, hmq, hpq, h1, h2, h3⟩
                  | ⟨p, rs, hm, h1, h2⟩
                · rcases List.mem_cons.mp hm with heq | hm'
                  · have hp : p = p0 := by
                      have := congrArg Prod.fst heq
                      simpa using this
                    exact absurd (hp ▸ h2) hbn
                  · exact Or.inl ⟨p, rs, hm', h1, List.mem_append_left _ h2⟩
                · rcases List.mem_cons.mp hmp with heqp | hmp'
                  · have hp : p = p0 := by
                      have := congrArg Prod.fst heqp
                      simpa using this
                    rcases List.mem_cons.mp hmq with heqq | hmq'
                    · have hq : q = p0 := by
                        have := congrArg Prod.fst heqq
                        simpa using this
                      exact absurd (hp.trans hq.symm) hpq
                    · refine Or.inl ⟨q, rsq, hmq', h2, ?_⟩
                      rw [← h3, hp]
                      exact List.mem_append_right _ (List.mem_singleton.mpr rfl)
                  · rcases List.mem_cons.mp hmq with heqq | hmq'
                    · have hq : q = p0 := by
                        have := congrArg Prod.fst heqq
                        simpa using this
                      refine Or.inl ⟨p, rsp, hmp', h1, ?_⟩
                      rw [h3, hq]
                      exact List.mem_append_right _ (List.mem_singleton.mpr rfl)
                    · exact Or.inr (Or.inl ⟨p, q, rsp, rsq, hmp', hmq', hpq, h1, h2, h3⟩)
                · rcases List.mem_cons.mp hm with heq | hm'
                  · have hp : p = p0 := by
                      have := congrArg Prod.fst heq
                      simpa using this
                    rw [hp] at h2
                    rw [h2] at hex
                    exact absurd hex (by simp)
                  · exact Or.inr (Or.inr ⟨p, rs, hm', h1, h2⟩)
              · refine ⟨.missingLibrary, ?_⟩
                have hnex : fs.existsPath p0 = false := by
                  cases h : fs.existsPath p0
                  · rfl
                  · exact absurd h hex
                simp [planTree, hext, hbn, hnex]
          · have hstep : planTree fs root ((Ref.abs p0, rs0) :: rest) bn cp dl
                = planTree fs root rest bn cp (dl ++ [p0]) := by
              have hf : relStartsDotDot p0 root = false := by
                cases h : relStartsDotDot p0 root
                · rfl
                · exact absurd h hext
              simp [planTree, hf]
            rw [hstep]
            refine ih bn cp (dl ++ [p0]) ?_
            rcases hbad with ⟨p, rs, hm, h1, h2⟩ | ⟨p, q, rsp, rsq, hmp, hmq, hpq, h1, h2, h3⟩
              | ⟨p, rs, hm, h1, h2⟩
            · rcases List.mem_cons.mp hm with heq | hm'
              · have hp : p = p0 := by
                  have := congrArg Prod.fst heq
                  simpa using this
                exact absurd (hp ▸ h1) hext
              · exact Or.inl ⟨p, rs, hm', h1, h2⟩
            · rcases List.mem_cons.mp hmp with heqp | hmp'
              · have hp : p = p0 := by
                  have := congrArg Prod.fst heqp
                  simpa using this
                exact absurd (hp ▸ h1) hext
              · rcases List.mem_cons.mp hmq with heqq | hmq'
                · have hq : q = p0 := by
                    have := congrArg Prod.fst heqq
                    simpa using this
                  exact absurd (hq ▸ h2) hext
                · exact Or.inr (Or.inl ⟨p, q, rsp, rsq, hmp', hmq', hpq, h1, h2, h3⟩)
            · rcases List.mem_cons.mp hm with heq | hm'
              · have hp : p = p0 := by
                  have := congrArg Prod.fst heq
                  simpa using this
                exact absurd (hp ▸ h1) hext
              · exact Or.inr (Or.inr ⟨p, rs, hm', h1, h2⟩)

/-- C1.  When the dependency graph handed to `delocate_tree_libs`
contains two distinct non-`@` required libraries outside `root_path`
that share a basename, or a to-copy required library that does not
exist on disk, the call fails with a `DelocationError` — and because
all checks run in the validation pass before the mutation loops, the
returned filesystem state is exactly the input state: no library has
been copied and no depending file has been rewritten. -/
theorem delocate_tree_libs_error_before_mutation
    (fs : FS) (ld : LibDict) (lib_path root : Path)
    (hbad :
      (∃ p q rsp rsq, (Ref.abs p, rsp) ∈ ld ∧ (Ref.abs q, rsq) ∈ ld ∧ p ≠ q ∧
        relStartsDotDot p root = true ∧ relStartsDotDot q root = true ∧
        basename p = basename q)
      ∨ (∃ p rs, (Ref.abs p, rs) ∈ ld ∧ relStartsDotDot p root = true ∧
          fs.existsPath p = false)) :
    (delocate_tree_libs fs ld lib_path root).1 = fs ∧
      ∃ e, (delocate_tree_libs fs ld lib_path root).2 = .error e := by
  have hhaz : PlanHazard fs root ld [] := by
    rcases hbad with h | h
    · exact Or.inr (Or.inl h)
    · exact Or.inr (Or.inr h)
  obtain ⟨e, he⟩ := planTree_hazard_error fs root ld [] [] [] hhaz
  constructor
  · simp [delocate_tree_libs, he]
  · exact ⟨e, by simp [delocate_tree_libs, he]⟩

/-- Witness for C1 at a concrete input: two distinct external libraries
`/opt/liba.dylib` and `/ext/liba.dylib` sharing basename `liba.dylib`
relative to root `/tree`, on an empty filesystem. -/
theorem delocate_tree_libs_error_before_mutation_witness :
    ((∃ p q rsp rsq,
        (Ref.abs p, rsp) ∈ ([(Ref.abs ["opt", "liba.dylib"], ([] : Inner)),
            (Ref.abs ["ext", "liba.dylib"], ([] : Inner))] : LibDict) ∧
        (Ref.abs q, rsq) ∈ ([(Ref.abs ["opt", "liba.dylib"], ([] : Inner)),
            (Ref.abs ["ext", "liba.dylib"], ([] : Inner))] : LibDict) ∧ p ≠ q ∧
        relStartsDotDot p ["tree"] = true ∧ relStartsDotDot q ["tree"] = true ∧
        basename p = basename q)
      ∨ (∃ p rs, (Ref.abs p, rs) ∈ ([(Ref.abs ["opt", "liba.dylib"], ([] : Inner)),
            (Ref.abs ["ext", "liba.dylib"], ([] : Inner))] : LibDict) ∧
          relStartsDotDot p ["tree"] = true ∧
          FS.existsPath ⟨[], [], []⟩ p = false))
    ∧ ((delocate_tree_libs ⟨[], [], []⟩
          [(Ref.abs ["opt", "liba.dylib"], []), (Ref.abs ["ext", "liba.dylib"], [])]
          ["tree", ".dylibs"] ["tree"]).1 = ⟨[], [], []⟩ ∧
        ∃ e, (delocate_tree_libs ⟨[], [], []⟩
          [(Ref.abs ["opt", "liba.dylib"], []), (Ref.abs ["ext", "liba.dylib"], [])]
          ["tree", ".dylibs"] ["tree"]).2 = .error e) := by
  constructor
  · exact Or.inl ⟨["opt", "liba.dylib"], ["ext", "liba.dylib"], [], [],
      by decide, by decide, by decide, by decide, by decide, by decide⟩
  · exact delocate_tree_libs_error_before_mutation ⟨[], [], []⟩
      [(Ref.abs ["opt", "liba.dylib"], []), (Ref.abs ["ext", "liba.dylib"], [])]
      ["tree", ".dylibs"] ["tree"]
      (Or.inl ⟨["opt", "liba.dylib"], ["ext", "liba.dylib"], [], [],
        by decide, by decide, by decide, by decide, by decide, by decide⟩)

/-- The to-copy entries of a graph relative to a boundary root: the
non-`@` keys lying outside the root, with their requiring dicts, in
graph order. -/
def extEntries (root : Path) (ld : LibDict) : List (Path × Inner) :=
  ld.filterMap fun kv =>
    match kv.1 with
    | .at_ _ => none
    | .abs p => if relStartsDotDot p root then some (p, kv.2) else none

/-- The to-relink keys of a graph: the non-`@` keys inside the root. -/
def localKeys (root : Path) (ld : LibDict) : List Path :=
  ld.filterMap fun kv =>
    match kv.1 with
    | .at_ _ => none
    | .abs p => if relStartsDotDot p root then none else some p

/-- All non-`@` key paths of a graph. -/
def nonAtKeys (ld : LibDict) : List Path :=
  ld.filterMap fun kv =>
    match kv.1 with
    | .at_ _ => none
    | .abs p => some p

/-- The reference substitution the executor of `delocate_tree_libs`
applies to the names of file `f`, restricted to required keys whose
path lies in `S`: a reference to key `q` for which `f` is a recorded
requiring file becomes the loader-relative copy reference (external
key) or relink reference (local key); everything else is untouched. -/
def substFor (ld : LibDict) (lib_path root : Path) (S : List Path) (f : Path) :
    Ref → Ref
  | .at_ s => .at_ s
  | .abs q =>
      if q ∈ S then
        match alook ld (.abs q) with
        | some rs =>
            if (alook rs f).isSome then
              if relStartsDotDot q root then loaderCopyRef lib_path f q
              else loaderRelinkRef q f
            else .abs q
        | none => .abs q
      else .abs q

lemma alook_mem {α β : Type} [DecidableEq α] {l : List (α × β)} {k : α} {v : β}
    (h : alook l k = some v) : (k, v) ∈ l := by
  induction l with
  | nil => simp [alook] at h
  | cons kv rest ih =>
      obtain ⟨k0, v0⟩ := kv
      by_cases hk : k0 = k
      · subst hk
        rw [show alook ((k0, v0) :: rest) k0 = some v0 from by simp [alook]] at h
        injection h with h
        subst h
        exact List.mem_cons_self _ _
      · rw [show alook ((k0, v0) :: rest) k = alook rest k from by simp [alook, hk]] at h
        exact List.mem_cons_of_mem _ (ih h)

lemma alook_of_mem_nodup {α β : Type} [DecidableEq α] {l : List (α × β)} {k : α}
    {v : β} (hnd : (l.map Prod.fst).Nodup) (h : (k, v) ∈ l) : alook l k = some v := by
  induction l with
  | nil => simp at h
  | cons kv rest ih =>
      obtain ⟨k0, v0⟩ := kv
      simp only [List.map_cons, List.nodup_cons] at hnd
      rcases List.mem_cons.mp h with heq | hmem
      · injection heq with h1 h2
        subst h1
        subst h2
        simp [alook]
      · have hk : k0 ≠ k := by
          intro hk0
          subst hk0
          exact hnd.1 (List.mem_map.mpr ⟨(k0, v), hmem, rfl⟩)
        rw [show alook ((k0, v0) :: rest) k = alook rest k from by simp [alook, hk]]
        exact ih hnd.2 hmem

lemma planTree_ok (fs : FS) (root : Path) :
    ∀ (l : List (Ref × Inner)) (bn : List String) (cp : List (Path × Inner))
      (dl : List Path),
      (∀ p rs, (Ref.abs p, rs) ∈ l → relStartsDotDot p root = true →
        fs.existsPath p = true) →
      (∀ pr ∈ extEntries root l, basename pr.1 ∉ bn) →
      (extEntries root l).Pairwise (fun a b => basename a.1 ≠ basename b.1) →
      planTree fs root l bn cp dl = .ok (cp ++ extEntries root l, dl ++ localKeys root l) := by
  intro l
  induction l with
  | nil => intro bn cp dl _ _ _; simp [planTree, extEntries, localKeys]
  | cons kv rest ih =>
      intro bn cp dl hex hbn hpw
      obtain ⟨req, rs0⟩ := kv
      match req with
      | .at_ s =>
          have hext : extEntries root ((Ref.at_ s, rs0) :: rest) = extEntries root rest := by
            simp [extEntries]
          have hloc : localKeys root ((Ref.at_ s, rs0) :: rest) = localKeys root rest := by
            simp [localKeys]
          rw [hext, hloc]
          rw [show planTree fs root ((Ref.at_ s, rs0) :: rest) bn cp dl
              = planTree fs root rest bn cp dl from rfl]
          exact ih bn cp dl
            (fun p rs hm h1 => hex p rs (List.mem_cons_of_mem _ hm) h1)
            (fun pr hm => hbn pr (by rw [hext]; exact hm))
            (by rwa [hext] at hpw)
      | .abs p0 =>
          by_cases hflag : relStartsDotDot p0 root = true
          · have hext : extEntries root ((Ref.abs p0, rs0) :: rest)
                = (p0, rs0) :: extEntries root rest := by
              simp [extEntries, hflag]
            have hloc : localKeys root ((Ref.abs p0, rs0) :: rest) = localKeys root rest := by
              simp [localKeys, hflag]
            have hbn0 : basename p0 ∉ bn := by
              refine hbn (p0, rs0) ?_
              rw [hext]
              exact List.mem_cons_self _ _
            have hex0 : fs.existsPath p0 = true :=
              hex p0 rs0 (List.mem_cons_self _ _) hflag
            have hstep : planTree fs root ((Ref.abs p0, rs0) :: rest) bn cp dl
                = planTree fs root rest (bn ++ [basename p0]) (cp ++ [(p0, rs0)]) dl := by
              simp [planTree, hflag, hbn0, hex0]
            rw [hstep, hext, hloc]
            rw [hext] at hpw
            have hpw' := List.pairwise_cons.mp hpw
            have := ih (bn ++ [basename p0]) (cp ++ [(p0, rs0)]) dl
              (fun p rs hm h1 => hex p rs (List.mem_cons_of_mem _ hm) h1)
              (fun pr hm => by
                intro hmem
                rcases List.mem_append.mp hmem with h | h
                · exact hbn pr (by rw [hext]; exact List.mem_cons_of_mem _ hm) h
                · exact hpw'.1 pr hm (List.mem_singleton.mp h).symm)
              hpw'.2
            rw [this, List.append_assoc]
            simp
          · have hflag' : relStartsDotDot p0 root = false := by
              cases h : relStartsDotDot p0 root
              · rfl
              · exact absurd h hflag
            have hext : extEntries root ((Ref.abs p0, rs0) :: rest) = extEntries root rest := by
              simp [extEntries, hflag']
            have hloc : localKeys root ((Ref.abs p0, rs0) :: rest)
                = p0 :: localKeys root rest := by
              simp [localKeys, hflag']
            have hstep : planTree fs root ((Ref.abs p0, rs0) :: rest) bn cp dl
                = planTree fs root rest bn cp (dl ++ [p0]) := by
              simp [planTree, hflag']
            rw [hstep, hext, hloc]
            have := ih bn cp (dl ++ [p0])
              (fun p rs hm h1 => hex p rs (List.mem_cons_of_mem _ hm) h1)
              (fun pr hm => hbn pr (by rw [hext]; exact hm))
              (by rwa [hext] at hpw)
            rw [this, List.append_assoc]
            simp

lemma alook_eq_none_iff {α β : Type} [DecidableEq α] (l : List (α × β)) (k : α) :
    alook l k = none ↔ k ∉ l.map Prod.fst := by
  induction l with
  | nil => simp [alook]
  | cons kv rest ih =>
      obtain ⟨k0, v0⟩ := kv
      by_cases hk : k0 = k
      · subst hk
        simp [alook]
      · simp [alook, hk, ih, Ne.symm hk]

lemma realpath_links_nil (fs : FS) (p : Path) (h : fs.links = []) :
    realpath fs p = p := by
  simp [realpath, h, alook]

lemma extEntries_mem {root : Path} {ld : LibDict} {pr : Path × Inner}
    (h : pr ∈ extEntries root ld) :
    (Ref.abs pr.1, pr.2) ∈ ld ∧ relStartsDotDot pr.1 root = true := by
  obtain ⟨kv, hkv, heq⟩ := List.mem_filterMap.mp h
  obtain ⟨req, rs⟩ := kv
  match req with
  | .at_ s => simp at heq
  | .abs p =>
      by_cases hflag : relStartsDotDot p root = true
      · simp only [hflag, if_true] at heq
        injection heq with heq
        subst heq
        exact ⟨hkv, hflag⟩
      · have hflag' : relStartsDotDot p root = false := by
          cases hq : relStartsDotDot p root
          · rfl
          · exact absurd hq hflag
        simp [hflag'] at heq

lemma extEntries_of_mem {root : Path} {ld : LibDict} {p : Path} {rs : Inner}
    (h : (Ref.abs p, rs) ∈ ld) (hflag : relStartsDotDot p root = true) :
    (p, rs) ∈ extEntries root ld :=
  List.mem_filterMap.mpr ⟨(Ref.abs p, rs), h, by simp [hflag]⟩

lemma localKeys_mem {root : Path} {ld : LibDict} {p : Path}
    (h : p ∈ localKeys root ld) :
    ∃ rs, (Ref.abs p, rs) ∈ ld ∧ relStartsDotDot p root = false := by
  obtain ⟨kv, hkv, heq⟩ := List.mem_filterMap.mp h
  obtain ⟨req, rs⟩ := kv
  match req with
  | .at_ s => simp at heq
  | .abs q =>
      by_cases hflag : relStartsDotDot q root = true
      · simp [hflag] at heq
      · have hflag' : relStartsDotDot q root = false := by
          cases hq : relStartsDotDot q root
          · rfl
          · exact absurd hq hflag
        simp [hflag'] at heq
        subst heq
        exact ⟨rs, hkv, hflag'⟩

lemma localKeys_of_mem {root : Path} {ld : LibDict} {p : Path} {rs : Inner}
    (h : (Ref.abs p, rs) ∈ ld) (hflag : relStartsDotDot p root = false) :
    p ∈ localKeys root ld :=
  List.mem_filterMap.mpr ⟨(Ref.abs p, rs), h, by simp [hflag]⟩

lemma nonAtKeys_mem {ld : LibDict} {p : Path} (h : p ∈ nonAtKeys ld) :
    ∃ rs, (Ref.abs p, rs) ∈ ld := by
  obtain ⟨kv, hkv, heq⟩ := List.mem_filterMap.mp h
  obtain ⟨req, rs⟩ := kv
  match req with
  | .at_ s => simp at heq
  | .abs q =>
      simp only [Option.some.injEq] at heq
      subst heq
      exact ⟨rs, hkv⟩

lemma nonAtKeys_of_mem {ld : LibDict} {p : Path} {rs : Inner}
    (h : (Ref.abs p, rs) ∈ ld) : p ∈ nonAtKeys ld :=
  List.mem_filterMap.mpr ⟨(Ref.abs p, rs), h, by simp⟩

lemma localKeys_nodup {root : Path} {ld : LibDict}
    (hnd : (ld.map Prod.fst).Nodup) : (localKeys root ld).Nodup := by
  induction ld with
  | nil => simp [localKeys]
  | cons kv rest ih =>
      obtain ⟨req, rs⟩ := kv
      simp only [List.map_cons, List.nodup_cons] at hnd
      match req with
      | .at_ s =>
          rw [show localKeys root ((Ref.at_ s, rs) :: rest) = localKeys root rest from by
            simp [localKeys]]
          exact ih hnd.2
      | .abs p =>
          by_cases hflag : relStartsDotDot p root = true
          · rw [show localKeys root ((Ref.abs p, rs) :: rest) = localKeys root rest from by
              simp [localKeys, hflag]]
            exact ih hnd.2
          · have hflag' : relStartsDotDot p root = false := by
              cases hq : relStartsDotDot p root
              · rfl
              · exact absurd hq hflag
            rw [show localKeys root ((Ref.abs p, rs) :: rest) = p :: localKeys root rest from by
              simp [localKeys, hflag']]
            refine List.nodup_cons.mpr ⟨?_, ih hnd.2⟩
            intro hmem
            obtain ⟨rs', hmem', -⟩ := localKeys_mem hmem
            exact hnd.1 (List.mem_map.mpr ⟨(Ref.abs p, rs'), hmem', rfl⟩)

lemma substFor_at (ld : LibDict) (lp root : Path) (S : List Path) (f : Path)
    (s : List String) : substFor ld lp root S f (Ref.at_ s) = Ref.at_ s := rfl

lemma substFor_self_of_notmem (ld : LibDict) (lp root : Path) (S : List Path)
    (f : Path) (p : Path) (hp : p ∉ S) :
    substFor ld lp root S f (Ref.abs p) = Ref.abs p := by
  simp [substFor, hp]

lemma substFor_abs_inv (ld : LibDict) (lp root : Path) (S : List Path) (f : Path)
    (x : Ref) (q : Path) (h : substFor ld lp root S f x = Ref.abs q) :
    x = Ref.abs q := by
  match x with
  | .at_ s => simp [substFor] at h
  | .abs q' =>
      simp only [substFor] at h
      by_cases hS : q' ∈ S
      · rw [if_pos hS] at h
        cases hld : alook ld (Ref.abs q') with
        | some rs =>
            simp only [hld] at h
            by_cases hrs : (alook rs f).isSome = true
            · rw [if_pos hrs] at h
              by_cases hext : relStartsDotDot q' root = true
              · rw [if_pos hext] at h
                exact absurd h (by simp [loaderCopyRef])
              · rw [if_neg hext] at h
                exact absurd h (by simp [loaderRelinkRef])
            · rw [if_neg hrs] at h
              exact h
        | none =>
            simp only [hld] at h
            exact h
      · rw [if_neg hS] at h
        exact h

lemma substFor_congr_mem (ld : LibDict) (lp root : Path) (S S' : List Path)
    (f : Path) (x : Ref) (h : ∀ q, q ∈ S ↔ q ∈ S') :
    substFor ld lp root S f x = substFor ld lp root S' f x := by
  match x with
  | .at_ s => rfl
  | .abs q =>
      simp only [substFor]
      by_cases hq : q ∈ S
      · rw [if_pos hq, if_pos ((h q).mp hq)]
      · rw [if_neg hq, if_neg (fun hh => hq ((h q).mpr hh))]

lemma substFor_id_of_noreq (ld : LibDict) (lp root : Path) (S : List Path)
    (f : Path) (x : Ref) (h : ∀ kv ∈ ld, alook kv.2 f = none) :
    substFor ld lp root S f x = x := by
  match x with
  | .at_ s => rfl
  | .abs q =>
      simp only [substFor]
      by_cases hq : q ∈ S
      · rw [if_pos hq]
        cases hld : alook ld (Ref.abs q) with
        | some rs =>
            have hnone := h (Ref.abs q, rs) (alook_mem hld)
            simp only at hnone
            simp only [hld, hnone]
            simp
        | none => simp only [hld]
      · rw [if_neg hq]

lemma substFor_extend_nonreq (ld : LibDict) (lp root : Path) (S : List Path)
    (f : Path) (x : Ref) (p : Path) (rs : Inner)
    (hld : alook ld (Ref.abs p) = some rs) (hf : alook rs f = none) :
    substFor ld lp root (S ++ [p]) f x = substFor ld lp root S f x := by
  match x with
  | .at_ s => rfl
  | .abs q =>
      by_cases hqp : q = p
      · subst hqp
        simp only [substFor]
        have hmem : q ∈ S ++ [q] := List.mem_append_right _ (List.mem_singleton.mpr rfl)
        rw [if_pos hmem]
        by_cases hq : q ∈ S
        · rw [if_pos hq]
        · rw [if_neg hq]
          simp [hld, hf]
      · simp only [substFor]
        have hiff : (q ∈ S ++ [p]) ↔ q ∈ S := by
          simp [hqp]
        by_cases hq : q ∈ S
        · rw [if_pos (hiff.mpr hq), if_pos hq]
        · rw [if_neg (fun hh => hq (hiff.mp hh)), if_neg hq]

lemma substFor_extend (ld : LibDict) (lp root : Path) (S : List Path) (f : Path)
    (x : Ref) (p : Path) (rs : Inner)
    (hp : p ∉ S) (hld : alook ld (Ref.abs p) = some rs)
    (hf : (alook rs f).isSome = true) :
    (if substFor ld lp root S f x = Ref.abs p
      then (if relStartsDotDot p root then loaderCopyRef lp f p else loaderRelinkRef p f)
      else substFor ld lp root S f x)
    = substFor ld lp root (S ++ [p]) f x := by
  match x with
  | .at_ s =>
      rw [substFor_at, substFor_at]
      simp
  | .abs q =>
      by_cases hqp : q = p
      · subst hqp
        rw [substFor_self_of_notmem _ _ _ _ _ _ hp, if_pos rfl]
        simp only [substFor]
        have hmem : q ∈ S ++ [q] := List.mem_append_right _ (List.mem_singleton.mpr rfl)
        rw [if_pos hmem]
        simp only [hld, if_pos hf]
      · have hiff : (q ∈ S ++ [p]) ↔ q ∈ S := by simp [hqp]
        by_cases hq : q ∈ S
        · conv_rhs => rw [show substFor ld lp root (S ++ [p]) f (Ref.abs q)
            = substFor ld lp root S f (Ref.abs q) from by
              simp only [substFor]
              rw [if_pos (hiff.mpr hq), if_pos hq]]
          by_cases habs : substFor ld lp root S f (Ref.abs q) = Ref.abs p
          · have := substFor_abs_inv _ _ _ _ _ _ _ habs
            injection this with this
            exact absurd this hqp
          · rw [if_neg habs]
        · rw [substFor_self_of_notmem _ _ _ _ _ _ hq]
          rw [if_neg (by intro hh; injection hh with hh; exact hqp hh)]
          simp only [substFor]
          rw [if_neg (fun hh => hq (hiff.mp hh))]

/-- Replace the file table of a state, keeping directories and links. -/
def withFiles (g : FS) (l : List (Path × FileData)) : FS := ⟨l, g.dirs, g.links⟩

lemma set_install_name_ok (g : FS) (f : Path) (old new : Ref) (fd : FileData)
    (hlinks : g.links = []) (hlook : alook g.files f = some fd)
    (hmem : old ∈ fd.names) :
    set_install_name g f old new
      = .ok (withFiles g (dupdate g.files f
          (FileData.mk (fd.names.map fun n => if n = old then new else n) fd.tag))) := by
  unfold set_install_name FS.lookup
  rw [realpath_links_nil g f hlinks, hlook]
  simp only [hmem, if_pos]
  rfl

lemma copy2_ok (g : FS) (src dstDir : Path) (fd : FileData)
    (hlinks : g.links = []) (hlook : alook g.files src = some fd) :
    copy2 g src dstDir
      = .ok (withFiles g (dupdate g.files (pjoin dstDir (basename src)) fd)) := by
  unfold copy2 FS.lookup
  rw [realpath_links_nil g src hlinks, realpath_links_nil g _ hlinks, hlook]
  rfl

lemma rewriteList_spec (fs0 : FS) (ld : LibDict) (lp root : Path)
    (p : Path) (rs : Inner) (nref : Path → Ref)
    (hld : alook ld (Ref.abs p) = some rs)
    (hnref : ∀ f, nref f
      = if relStartsDotDot p root then loaderCopyRef lp f p else loaderRelinkRef p f) :
    ∀ (rsl : List (Path × Ref)) (S : List Path) (g : FS),
      p ∉ S →
      (∀ fr ∈ rsl, (alook rs fr.1).isSome = true) →
      (rsl.map Prod.fst).Nodup →
      g.links = [] →
      (∀ fr ∈ rsl, ∃ fd, alook fs0.files fr.1 = some fd ∧ Ref.abs p ∈ fd.names ∧
        alook g.files fr.1
          = some ⟨fd.names.map (substFor ld lp root S fr.1), fd.tag⟩) →
      ∃ g', rewriteList (Ref.abs p) nref g rsl = (g', .ok ()) ∧
        g'.links = g.links ∧ g'.dirs = g.dirs ∧
        (∀ f, f ∉ rsl.map Prod.fst → alook g'.files f = alook g.files f) ∧
        (∀ fr ∈ rsl, ∀ fd, alook fs0.files fr.1 = some fd →
          alook g'.files fr.1
            = some ⟨fd.names.map (substFor ld lp root (S ++ [p]) fr.1), fd.tag⟩) := by
  intro rsl
  induction rsl with
  | nil =>
      intro S g hp hreq hnd hlinks hrel
      exact ⟨g, rfl, rfl, rfl, fun f _ => rfl, fun fr hfr => by simp at hfr⟩
  | cons fr0 rest ih =>
      intro S g hp hreq hnd hlinks hrel
      obtain ⟨f0, r0⟩ := fr0
      obtain ⟨fd0, hfd0, hmem0, hg0⟩ := hrel (f0, r0) (List.mem_cons_self _ _)
      have hdmem : Ref.abs p ∈ fd0.names.map (substFor ld lp root S f0) :=
        List.mem_map.mpr ⟨Ref.abs p, hmem0, substFor_self_of_notmem ld lp root S f0 p hp⟩
      have hstep := set_install_name_ok g f0 (Ref.abs p) (nref f0)
        ⟨fd0.names.map (substFor ld lp root S f0), fd0.tag⟩ hlinks hg0 hdmem
      have hnames : (fd0.names.map (substFor ld lp root S f0)).map
            (fun n => if n = Ref.abs p then nref f0 else n)
          = fd0.names.map (substFor ld lp root (S ++ [p]) f0) := by
        rw [List.map_map]
        refine List.map_congr_left fun x _ => ?_
        show (if substFor ld lp root S f0 x = Ref.abs p then nref f0
            else substFor ld lp root S f0 x) = _
        rw [hnref f0]
        exact substFor_extend ld lp root S f0 x p rs hp hld
          (hreq (f0, r0) (List.mem_cons_self _ _))
      have hrw : rewriteList (Ref.abs p) nref g ((f0, r0) :: rest)
          = rewriteList (Ref.abs p) nref
              (withFiles g (dupdate g.files f0
                (FileData.mk (fd0.names.map (substFor ld lp root (S ++ [p]) f0)) fd0.tag))) rest := by
        unfold rewriteList
        rw [hstep]
        simp only []
        rw [hnames]
        rw [rewriteList.eq_def]
      simp only [List.map_cons, List.nodup_cons] at hnd
      have hrest := ih S
        (withFiles g (dupdate g.files f0
          (FileData.mk (fd0.names.map (substFor ld lp root (S ++ [p]) f0)) fd0.tag)))
        hp (fun fr hfr => hreq fr (List.mem_cons_of_mem _ hfr)) hnd.2 hlinks
        (fun fr hfr => by
          obtain ⟨fd, hfd, hm, hg⟩ := hrel fr (List.mem_cons_of_mem _ hfr)
          refine ⟨fd, hfd, hm, ?_⟩
          have hne : f0 ≠ fr.1 := by
            intro heq
            exact hnd.1 (heq ▸ List.mem_map.mpr ⟨fr, hfr, rfl⟩)
          simp only [withFiles, alook_dupdate, if_neg hne]
          exact hg)
      obtain ⟨g', hrun, hlinks', hdirs', hother, hdone⟩ := hrest
      refine ⟨g', by rw [hrw]; exact hrun, hlinks', hdirs', ?_, ?_⟩
      · intro f hf
        simp only [List.map_cons, List.mem_cons, not_or] at hf
        rw [hother f hf.2]
        simp only [withFiles, alook_dupdate]
        rw [if_neg (fun hh => hf.1 hh.symm)]
      · intro fr hfr fd hfd
        rcases List.mem_cons.mp hfr with heq | hmem
        · subst heq
          have hf0notin : (f0, r0).1 ∉ rest.map Prod.fst := hnd.1
          rw [hother _ hf0notin]
          rw [hfd0] at hfd
          injection hfd with hfd
          subst hfd
          simp [withFiles, alook_dupdate]
        · exact hdone fr hmem fd hfd

lemma pjoin_inj (d : Path) (a b : String) (h : pjoin d a = pjoin d b) : a = b := by
  simp [pjoin] at h
  exact h

lemma execCopied_spec (fs0 : FS) (ld : LibDict) (lp root : Path)
    (hnd_outer : (ld.map Prod.fst).Nodup)
    (hreq_ex : ∀ q rs, (Ref.abs q, rs) ∈ ld → ∀ fr ∈ rs,
        ∃ fd, alook fs0.files fr.1 = some fd ∧ Ref.abs q ∈ fd.names)
    (hinner_nd : ∀ kv ∈ ld, (kv.2.map Prod.fst).Nodup)
    (hreq_notdest : ∀ kv ∈ ld, ∀ fr ∈ kv.2, ∀ pr ∈ extEntries root ld,
        fr.1 ≠ pjoin lp (basename pr.1))
    (hkey_notdest : ∀ q ∈ nonAtKeys ld, ∀ pr ∈ extEntries root ld,
        q ≠ pjoin lp (basename pr.1))
    (hsrc_noreq : ∀ q ∈ nonAtKeys ld, ∀ kv ∈ ld, alook kv.2 q = none)
    (hsrc_ex : ∀ pr ∈ extEntries root ld, ∃ fd, alook fs0.files pr.1 = some fd) :
    ∀ (cl : List (Path × Inner)) (S : List Path) (g : FS),
      (∀ pr ∈ cl, pr ∈ extEntries root ld) →
      (cl.Pairwise fun a b => basename a.1 ≠ basename b.1) →
      (∀ pr ∈ cl, pr.1 ∉ S) →
      g.links = [] →
      (∀ f, (∀ pr ∈ extEntries root ld, f ≠ pjoin lp (basename pr.1)) →
        ∀ fd, alook fs0.files f = some fd →
        alook g.files f = some ⟨fd.names.map (substFor ld lp root S f), fd.tag⟩) →
      ∃ g', execCopied lp g cl = (g', .ok ()) ∧ g'.links = g.links ∧ g'.dirs = g.dirs ∧
        (∀ f, (∀ pr ∈ extEntries root ld, f ≠ pjoin lp (basename pr.1)) →
          ∀ fd, alook fs0.files f = some fd →
          alook g'.files f
            = some ⟨fd.names.map (substFor ld lp root (S ++ cl.map Prod.fst) f), fd.tag⟩) ∧
        (∀ pr ∈ cl, alook g'.files (pjoin lp (basename pr.1)) = alook fs0.files pr.1) ∧
        (∀ f, (∀ pr ∈ cl, f ≠ pjoin lp (basename pr.1)) →
          (∀ pr ∈ cl, alook pr.2 f = none) →
          alook g'.files f = alook g.files f) := by
  intro cl
  induction cl with
  | nil =>
      intro S g hclmem hpw hSdisj hlinks Hg
      refine ⟨g, rfl, rfl, rfl, ?_, fun pr hpr => by simp at hpr, fun f _ _ => rfl⟩
      intro f hnd2 fd hfd
      rw [Hg f hnd2 fd hfd]
      simp
  | cons pr0 rest ih =>
      intro S g hclmem hpw hSdisj hlinks Hg
      obtain ⟨p, rs⟩ := pr0
      have hext0 : (p, rs) ∈ extEntries root ld := hclmem (p, rs) (List.mem_cons_self _ _)
      obtain ⟨hld_mem, hflag⟩ := extEntries_mem hext0
      simp only at hld_mem hflag
      have hcohp : alook ld (Ref.abs p) = some rs := alook_of_mem_nodup hnd_outer hld_mem
      have hkeymem : p ∈ nonAtKeys ld := nonAtKeys_of_mem hld_mem
      have hpnotdest : ∀ pr ∈ extEntries root ld, p ≠ pjoin lp (basename pr.1) :=
        hkey_notdest p hkeymem
      obtain ⟨fdp, hfdp⟩ := hsrc_ex (p, rs) hext0
      simp only at hfdp
      -- the source file is never a requiring file, so its names are untouched
      have hsubid : fdp.names.map (substFor ld lp root S p) = fdp.names := by
        have h1 : fdp.names.map (substFor ld lp root S p) = fdp.names.map id :=
          List.map_congr_left fun x _ =>
            substFor_id_of_noreq ld lp root S p x (hsrc_noreq p hkeymem)
        rw [h1, List.map_id]
      have hgp : alook g.files p = some fdp := by
        have := Hg p hpnotdest fdp hfdp
        rw [hsubid] at this
        exact this
      have hcopy := copy2_ok g p lp fdp hlinks hgp
      -- the state after the copy
      have hg1links : (withFiles g (dupdate g.files (pjoin lp (basename p)) fdp)).links = [] :=
        hlinks
      have hg1look : ∀ f, f ≠ pjoin lp (basename p) →
          alook (withFiles g (dupdate g.files (pjoin lp (basename p)) fdp)).files f
            = alook g.files f := by
        intro f hne
        simp only [withFiles, alook_dupdate]
        rw [if_neg (fun hh => hne hh.symm)]
      have hg1dest : alook (withFiles g (dupdate g.files (pjoin lp (basename p)) fdp)).files
          (pjoin lp (basename p)) = some fdp := by
        simp [withFiles, alook_dupdate]
      have hinner_rs : (rs.map Prod.fst).Nodup := hinner_nd (Ref.abs p, rs) hld_mem
      have hrsreq : ∀ fr ∈ rs, (alook rs fr.1).isSome = true := by
        intro fr hfr
        obtain ⟨f1, r1⟩ := fr
        rw [alook_of_mem_nodup hinner_rs hfr]
        rfl
      have hrelg1 : ∀ fr ∈ rs, ∃ fd, alook fs0.files fr.1 = some fd ∧
          Ref.abs p ∈ fd.names ∧
          alook (withFiles g (dupdate g.files (pjoin lp (basename p)) fdp)).files fr.1
            = some ⟨fd.names.map (substFor ld lp root S fr.1), fd.tag⟩ := by
        intro fr hfr
        obtain ⟨fd, hfd, hm⟩ := hreq_ex p rs hld_mem fr hfr
        refine ⟨fd, hfd, hm, ?_⟩
        rw [hg1look fr.1 (hreq_notdest (Ref.abs p, rs) hld_mem fr hfr (p, rs) hext0)]
        exact Hg fr.1 (fun pr hpr => hreq_notdest (Ref.abs p, rs) hld_mem fr hfr pr hpr) fd hfd
      have hp_notS : p ∉ S := hSdisj (p, rs) (List.mem_cons_self _ _)
      obtain ⟨g2, hrun, hg2links, hg2dirs, hg2other, hg2done⟩ :=
        rewriteList_spec fs0 ld lp root p rs
          (fun requiring => loaderCopyRef lp requiring p) hcohp
          (fun f => by simp [hflag]) rs S
          (withFiles g (dupdate g.files (pjoin lp (basename p)) fdp))
          hp_notS hrsreq hinner_rs hg1links hrelg1
      -- relation for the state after head processing, at S ++ [p]
      have hrelg2 : ∀ f, (∀ pr ∈ extEntries root ld, f ≠ pjoin lp (basename pr.1)) →
          ∀ fd, alook fs0.files f = some fd →
          alook g2.files f = some ⟨fd.names.map (substFor ld lp root (S ++ [p]) f), fd.tag⟩ := by
        intro f hnd2 fd hfd
        by_cases hfin : f ∈ rs.map Prod.fst
        · obtain ⟨fr, hfr, hfr1⟩ := List.mem_map.mp hfin
          subst hfr1
          exact hg2done fr hfr fd hfd
        · rw [hg2other f hfin]
          rw [hg1look f (hnd2 (p, rs) hext0)]
          have hnone : alook rs f = none := (alook_eq_none_iff rs f).mpr hfin
          rw [Hg f hnd2 fd hfd]
          have h1 : fd.names.map (substFor ld lp root (S ++ [p]) f)
              = fd.names.map (substFor ld lp root S f) :=
            List.map_congr_left fun x _ =>
              substFor_extend_nonreq ld lp root S f x p rs hcohp hnone
          rw [h1]
      have hg2dest : alook g2.files (pjoin lp (basename p)) = some fdp := by
        have hdnotin : pjoin lp (basename p) ∉ rs.map Prod.fst := by
          intro hmem
          obtain ⟨fr, hfr, hfr1⟩ := List.mem_map.mp hmem
          exact hreq_notdest (Ref.abs p, rs) hld_mem fr hfr (p, rs) hext0 hfr1
        rw [hg2other _ hdnotin]
        exact hg1dest
      -- recurse on the remaining copies
      have hpw' := List.pairwise_cons.mp hpw
      obtain ⟨g3, hrun3, hg3links, hg3dirs, hg3rel, hg3dest, hg3other⟩ :=
        ih (S ++ [p]) g2
          (fun pr hpr => hclmem pr (List.mem_cons_of_mem _ hpr))
          hpw'.2
          (fun pr hpr => by
            intro hmem
            rcases List.mem_append.mp hmem with h | h
            · exact hSdisj pr (List.mem_cons_of_mem _ hpr) h
            · have : pr.1 = p := List.mem_singleton.mp h
              have hbn := hpw'.1 pr hpr
              exact hbn (by rw [this])
          )
          (hg2links.trans hg1links)
          hrelg2
      -- assemble
      have hunfold : execCopied lp g ((p, rs) :: rest) = execCopied lp g2 rest := by
        rw [show execCopied lp g ((p, rs) :: rest)
            = (match copy2 g p lp with
               | .error e => (g, .error e)
               | .ok fs2 =>
                   match rewriteList (Ref.abs p)
                       (fun requiring => loaderCopyRef lp requiring p) fs2 rs with
                   | (fs3, .error e) => (fs3, .error e)
                   | (fs3, .ok _) => execCopied lp fs3 rest) from rfl]
        rw [hcopy]
        simp only []
        rw [hrun]
      refine ⟨g3, by rw [hunfold]; exact hrun3, ?_, ?_, ?_, ?_, ?_⟩
      · rw [hg3links, hg2links]
        exact hg1links.trans hlinks.symm
      · rw [hg3dirs, hg2dirs]
        rfl
      · intro f hnd2 fd hfd
        have := hg3rel f hnd2 fd hfd
        rw [this]
        congr 2
        rw [List.append_assoc]
        rfl
      · intro pr hpr
        rcases List.mem_cons.mp hpr with heq | hmem
        · subst heq
          show alook g3.files (pjoin lp (basename p)) = alook fs0.files p
          rw [hfdp, ← hg2dest]
          refine hg3other (pjoin lp (basename p)) ?_ ?_
          · intro pr' hpr'
            intro hh
            exact hpw'.1 pr' hpr' (pjoin_inj lp _ _ hh)
          · intro pr' hpr'
            cases hcase : alook pr'.2 (pjoin lp (basename p)) with
            | none => rfl
            | some r =>
                have hmm := alook_mem hcase
                obtain ⟨hld', -⟩ := extEntries_mem (hclmem pr' (List.mem_cons_of_mem _ hpr'))
                exact absurd rfl
                  (hreq_notdest (Ref.abs pr'.1, pr'.2) hld'
                    (pjoin lp (basename p), r) hmm (p, rs) hext0)
        · exact hg3dest pr hmem
      · intro f hne hnoreq
        rw [hg3other f (fun pr hpr => hne pr (List.mem_cons_of_mem _ hpr))
            (fun pr hpr => hnoreq pr (List.mem_cons_of_mem _ hpr))]
        have hnotrs : f ∉ rs.map Prod.fst :=
          (alook_eq_none_iff rs f).mp (hnoreq (p, rs) (List.mem_cons_self _ _))
        rw [hg2other f hnotrs]
        exact hg1look f (hne (p, rs) (List.mem_cons_self _ _))

lemma execRelink_spec (fs0 : FS) (ld : LibDict) (lp root : Path)
    (hnd_outer : (ld.map Prod.fst).Nodup)
    (hreq_ex : ∀ q rs, (Ref.abs q, rs) ∈ ld → ∀ fr ∈ rs,
        ∃ fd, alook fs0.files fr.1 = some fd ∧ Ref.abs q ∈ fd.names)
    (hinner_nd : ∀ kv ∈ ld, (kv.2.map Prod.fst).Nodup)
    (hreq_notdest : ∀ kv ∈ ld, ∀ fr ∈ kv.2, ∀ pr ∈ extEntries root ld,
        fr.1 ≠ pjoin lp (basename pr.1)) :
    ∀ (dl : List Path) (S : List Path) (g : FS),
      (∀ p ∈ dl, p ∈ localKeys root ld) →
      dl.Nodup →
      (∀ p ∈ dl, p ∉ S) →
      g.links = [] →
      (∀ f, (∀ pr ∈ extEntries root ld, f ≠ pjoin lp (basename pr.1)) →
        ∀ fd, alook fs0.files f = some fd →
        alook g.files f = some ⟨fd.names.map (substFor ld lp root S f), fd.tag⟩) →
      ∃ g', execRelink ld g dl = (g', .ok ()) ∧ g'.links = g.links ∧ g'.dirs = g.dirs ∧
        (∀ f, (∀ pr ∈ extEntries root ld, f ≠ pjoin lp (basename pr.1)) →
          ∀ fd, alook fs0.files f = some fd →
          alook g'.files f
            = some ⟨fd.names.map (substFor ld lp root (S ++ dl) f), fd.tag⟩) ∧
        (∀ f, (∀ p ∈ dl, ∀ rs, alook ld (Ref.abs p) = some rs → alook rs f = none) →
          alook g'.files f = alook g.files f) := by
  intro dl
  induction dl with
  | nil =>
      intro S g hdlmem hnd hSdisj hlinks Hg
      refine ⟨g, rfl, rfl, rfl, ?_, fun f _ => rfl⟩
      intro f hnd2 fd hfd
      rw [Hg f hnd2 fd hfd]
      simp
  | cons p restdl ih =>
      intro S g hdlmem hnd hSdisj hlinks Hg
      obtain ⟨rs, hld_mem, hflag⟩ := localKeys_mem (hdlmem p (List.mem_cons_self _ _))
      have hcohp : alook ld (Ref.abs p) = some rs := alook_of_mem_nodup hnd_outer hld_mem
      have hinner_rs : (rs.map Prod.fst).Nodup := hinner_nd (Ref.abs p, rs) hld_mem
      have hrsreq : ∀ fr ∈ rs, (alook rs fr.1).isSome = true := by
        intro fr hfr
        obtain ⟨f1, r1⟩ := fr
        rw [alook_of_mem_nodup hinner_rs hfr]
        rfl
      have hrelg : ∀ fr ∈ rs, ∃ fd, alook fs0.files fr.1 = some fd ∧
          Ref.abs p ∈ fd.names ∧
          alook g.files fr.1 = some ⟨fd.names.map (substFor ld lp root S fr.1), fd.tag⟩ := by
        intro fr hfr
        obtain ⟨fd, hfd, hm⟩ := hreq_ex p rs hld_mem fr hfr
        exact ⟨fd, hfd, hm,
          Hg fr.1 (fun pr hpr => hreq_notdest (Ref.abs p, rs) hld_mem fr hfr pr hpr) fd hfd⟩
      have hp_notS : p ∉ S := hSdisj p (List.mem_cons_self _ _)
      simp only [List.nodup_cons] at hnd
      obtain ⟨g2, hrun, hg2links, hg2dirs, hg2other, hg2done⟩ :=
        rewriteList_spec fs0 ld lp root p rs
          (fun requiring => loaderRelinkRef p requiring) hcohp
          (fun f => by simp [hflag]) rs S g hp_notS hrsreq hinner_rs hlinks hrelg
      have hrelg2 : ∀ f, (∀ pr ∈ extEntries root ld, f ≠ pjoin lp (basename pr.1)) →
          ∀ fd, alook fs0.files f = some fd →
          alook g2.files f
            = some ⟨fd.names.map (substFor ld lp root (S ++ [p]) f), fd.tag⟩ := by
        intro f hnd2 fd hfd
        by_cases hfin : f ∈ rs.map Prod.fst
        · obtain ⟨fr, hfr, hfr1⟩ := List.mem_map.mp hfin
          subst hfr1
          exact hg2done fr hfr fd hfd
        · rw [hg2other f hfin]
          have hnone : alook rs f = none := (alook_eq_none_iff rs f).mpr hfin
          rw [Hg f hnd2 fd hfd]
          have h1 : fd.names.map (substFor ld lp root (S ++ [p]) f)
              = fd.names.map (substFor ld lp root S f) :=
            List.map_congr_left fun x _ =>
              substFor_extend_nonreq ld lp root S f x p rs hcohp hnone
          rw [h1]
      obtain ⟨g3, hrun3, hg3links, hg3dirs, hg3rel, hg3other⟩ :=
        ih (S ++ [p]) g2
          (fun q hq => hdlmem q (List.mem_cons_of_mem _ hq))
          hnd.2
          (fun q hq => by
            intro hmem
            rcases List.mem_append.mp hmem with h | h
            · exact hSdisj q (List.mem_cons_of_mem _ hq) h
            · exact hnd.1 ((List.mem_singleton.mp h) ▸ hq))
          (hg2links.trans hlinks)
          hrelg2
      have hunfold : execRelink ld g (p :: restdl) = execRelink ld g2 restdl := by
        rw [show execRelink ld g (p :: restdl)
            = (match rewriteList (Ref.abs p)
                  (fun requiring => loaderRelinkRef p requiring) g
                  ((alook ld (Ref.abs p)).getD []) with
               | (fs2, .error e) => (fs2, .error e)
               | (fs2, .ok _) => execRelink ld fs2 restdl) from rfl]
        rw [hcohp]
        simp only [Option.getD]
        rw [hrun]
      refine ⟨g3, by rw [hunfold]; exact hrun3, ?_, ?_, ?_, ?_⟩
      · rw [hg3links, hg2links]
      · rw [hg3dirs, hg2dirs]
      · intro f hnd2 fd hfd
        rw [hg3rel f hnd2 fd hfd]
        congr 2
        rw [List.append_assoc]
        rfl
      · intro f hnoreq
        have hnotrs : f ∉ rs.map Prod.fst :=
          (alook_eq_none_iff rs f).mp (hnoreq p (List.mem_cons_self _ _) rs hcohp)
        rw [hg3other f (fun q hq rs' hrs' => hnoreq q (List.mem_cons_of_mem _ hq) rs' hrs')]
        exact hg2other f hnotrs

lemma substFor_nil (ld : LibDict) (lp root : Path) (f : Path) (x : Ref) :
    substFor ld lp root [] f x = x := by
  match x with
  | .at_ s => rfl
  | .abs q => simp [substFor]

lemma mem_ext_local_iff_nonAt (root : Path) (ld : LibDict) (q : Path) :
    q ∈ (extEntries root ld).map Prod.fst ++ localKeys root ld ↔ q ∈ nonAtKeys ld := by
  constructor
  · intro h
    rcases List.mem_append.mp h with h | h
    · obtain ⟨pr, hpr, hq⟩ := List.mem_map.mp h
      obtain ⟨hmem, -⟩ := extEntries_mem hpr
      exact hq ▸ nonAtKeys_of_mem hmem
    · obtain ⟨rs, hmem, -⟩ := localKeys_mem h
      exact nonAtKeys_of_mem hmem
  · intro h
    obtain ⟨rs, hmem⟩ := nonAtKeys_mem h
    by_cases hflag : relStartsDotDot q root = true
    · exact List.mem_append_left _
        (List.mem_map.mpr ⟨(q, rs), extEntries_of_mem hmem hflag, rfl⟩)
    · have hflag' : relStartsDotDot q root = false := by
        cases hq : relStartsDotDot q root
        · rfl
        · exact absurd hq hflag
      exact List.mem_append_right _ (localKeys_of_mem hmem hflag')

/-- C5.  On a well-separated symlink-free state (requiring files exist
and record the canonical reference, copy destinations are fresh,
external sources exist, are not requiring files, and have pairwise
distinct basenames), `delocate_tree_libs` succeeds and: for every
to-copy required library (outside `root`), the data of the original
file is copied unchanged (metadata preserved) to
`lib_path/basename(required)`, and every other file's reference table
is mapped by `substFor`: a reference to a to-copy required library from
a recorded requiring file becomes
`@loader_path/relpath(lib_path, dirname(requiring))/basename(required)`
(`loaderCopyRef`), a reference to an in-tree required library becomes
`@loader_path/relpath(required, dirname(requiring))` (`loaderRelinkRef`)
with no copy performed, and all other references are untouched. -/
theorem delocate_tree_libs_executor
    (fs : FS) (ld : LibDict) (lp root : Path)
    (hlinks : fs.links = [])
    (hnd_outer : (ld.map Prod.fst).Nodup)
    (hinner_nd : ∀ kv ∈ ld, (kv.2.map Prod.fst).Nodup)
    (hreq_ex : ∀ q rs, (Ref.abs q, rs) ∈ ld → ∀ fr ∈ rs,
        ∃ fd, alook fs.files fr.1 = some fd ∧ Ref.abs q ∈ fd.names)
    (hreq_notdest : ∀ kv ∈ ld, ∀ fr ∈ kv.2, ∀ pr ∈ extEntries root ld,
        fr.1 ≠ pjoin lp (basename pr.1))
    (hkey_notdest : ∀ q ∈ nonAtKeys ld, ∀ pr ∈ extEntries root ld,
        q ≠ pjoin lp (basename pr.1))
    (hsrc_noreq : ∀ q ∈ nonAtKeys ld, ∀ kv ∈ ld, alook kv.2 q = none)
    (hsrc_ex : ∀ pr ∈ extEntries root ld, ∃ fd, alook fs.files pr.1 = some fd)
    (hpw : (extEntries root ld).Pairwise fun a b => basename a.1 ≠ basename b.1) :
    ∃ fs', delocate_tree_libs fs ld lp root
        = (fs', .ok ((extEntries root ld).map fun c => (c.1, DepVal.dictV c.2))) ∧
      (∀ pr ∈ extEntries root ld,
        alook fs'.files (pjoin lp (basename pr.1)) = alook fs.files pr.1) ∧
      (∀ f, (∀ pr ∈ extEntries root ld, f ≠ pjoin lp (basename pr.1)) →
        ∀ fd, alook fs.files f = some fd →
        alook fs'.files f
          = some ⟨fd.names.map (substFor ld lp root (nonAtKeys ld) f), fd.tag⟩) := by
  have hplan : planTree fs root ld [] [] []
      = .ok (extEntries root ld, localKeys root ld) := by
    have := planTree_ok fs root ld [] [] []
      (fun p rs hm hflag => by
        obtain ⟨fd, hfd⟩ := hsrc_ex (p, rs) (extEntries_of_mem hm hflag)
        simp only at hfd
        simp [FS.existsPath, FS.lookup, realpath_links_nil fs p hlinks, hfd])
      (fun pr _ => by simp)
      hpw
    simpa using this
  have Hg0 : ∀ f, (∀ pr ∈ extEntries root ld, f ≠ pjoin lp (basename pr.1)) →
      ∀ fd, alook fs.files f = some fd →
      alook fs.files f = some ⟨fd.names.map (substFor ld lp root [] f), fd.tag⟩ := by
    intro f _ fd hfd
    rw [hfd]
    have h1 : fd.names.map (substFor ld lp root [] f) = fd.names.map id :=
      List.map_congr_left fun x _ => substFor_nil ld lp root f x
    rw [h1, List.map_id]
  obtain ⟨g1, hrun1, hg1links, hg1dirs, hg1rel, hg1dest, hg1other⟩ :=
    execCopied_spec fs ld lp root hnd_outer hreq_ex hinner_nd hreq_notdest
      hkey_notdest hsrc_noreq hsrc_ex (extEntries root ld) [] fs
      (fun pr hpr => hpr) hpw (fun pr _ => List.not_mem_nil _) hlinks Hg0
  have hg1rel' : ∀ f, (∀ pr ∈ extEntries root ld, f ≠ pjoin lp (basename pr.1)) →
      ∀ fd, alook fs.files f = some fd →
      alook g1.files f = some ⟨fd.names.map
        (substFor ld lp root ((extEntries root ld).map Prod.fst) f), fd.tag⟩ := by
    intro f hnd2 fd hfd
    have := hg1rel f hnd2 fd hfd
    rwa [List.nil_append] at this
  obtain ⟨g2, hrun2, hg2links, hg2dirs, hg2rel, hg2other⟩ :=
    execRelink_spec fs ld lp root hnd_outer hreq_ex hinner_nd hreq_notdest
      (localKeys root ld) ((extEntries root ld).map Prod.fst) g1
      (fun p hp => hp) (localKeys_nodup hnd_outer)
      (fun p hp => by
        intro hmem
        obtain ⟨pr, hpr, hq⟩ := List.mem_map.mp hmem
        obtain ⟨-, hflagT⟩ := extEntries_mem hpr
        obtain ⟨rs, -, hflagF⟩ := localKeys_mem hp
        rw [hq] at hflagT
        rw [hflagT] at hflagF
        exact absurd hflagF (by simp))
      (hg1links.trans hlinks) hg1rel'
  refine ⟨g2, ?_, ?_, ?_⟩
  · unfold delocate_tree_libs
    rw [hplan]
    simp only []
    rw [hrun1]
    simp only []
    rw [hrun2]
  · intro pr hpr
    have hnotreq : ∀ p ∈ localKeys root ld, ∀ rs, alook ld (Ref.abs p) = some rs →
        alook rs (pjoin lp (basename pr.1)) = none := by
      intro p hp rs hrs
      cases hcase : alook rs (pjoin lp (basename pr.1)) with
      | none => rfl
      | some r =>
          have hmm := alook_mem hcase
          have hld_mem := alook_mem hrs
          exact absurd rfl
            (hreq_notdest (Ref.abs p, rs) hld_mem (pjoin lp (basename pr.1), r) hmm pr hpr)
    rw [hg2other _ hnotreq]
    exact hg1dest pr hpr
  · intro f hnd2 fd hfd
    rw [hg2rel f hnd2 fd hfd]
    congr 2
    exact List.map_congr_left fun x _ =>
      substFor_congr_mem ld lp root _ _ f x (mem_ext_local_iff_nonAt root ld)

lemma req_ex_of_bounded (fs : FS) (ld : LibDict)
    (h : ∀ kv ∈ ld, ∀ fr ∈ kv.2, (alook fs.files fr.1).isSome = true ∧
      kv.1 ∈ ((alook fs.files fr.1).getD ⟨[], 0⟩).names) :
    ∀ q rs, (Ref.abs q, rs) ∈ ld → ∀ fr ∈ rs,
      ∃ fd, alook fs.files fr.1 = some fd ∧ Ref.abs q ∈ fd.names := by
  intro q rs hm fr hfr
  obtain ⟨h1, h2⟩ := h (Ref.abs q, rs) hm fr hfr
  cases hk : alook fs.files fr.1 with
  | none =>
      rw [hk] at h1
      simp at h1
  | some fd =>
      rw [hk] at h2
      exact ⟨fd, rfl, by simpa using h2⟩

lemma src_ex_of_bounded (fs : FS) (l : List (Path × Inner))
    (h : ∀ pr ∈ l, (alook fs.files pr.1).isSome = true) :
    ∀ pr ∈ l, ∃ fd, alook fs.files pr.1 = some fd := by
  intro pr hpr
  cases hk : alook fs.files pr.1 with
  | none =>
      have := h pr hpr
      rw [hk] at this
      simp at this
  | some fd => exact ⟨fd, rfl⟩

/-- Witness for C5 at the spec scenario: a tree `/tree` with binary
`A.so` depending on the external `/opt/libX.dylib` and the in-tree
`/tree/sub/libY.dylib`. -/
theorem delocate_tree_libs_executor_witness :
    (FS.mk
      [(["tree", "A.so"],
          ⟨[Ref.abs ["opt", "libX.dylib"], Ref.abs ["tree", "sub", "libY.dylib"]], 1⟩),
        (["opt", "libX.dylib"], ⟨[], 7⟩),
        (["tree", "sub", "libY.dylib"], ⟨[], 8⟩)] [] []).links = []
    ∧ ∃ fs', delocate_tree_libs
        (FS.mk
          [(["tree", "A.so"],
              ⟨[Ref.abs ["opt", "libX.dylib"], Ref.abs ["tree", "sub", "libY.dylib"]], 1⟩),
            (["opt", "libX.dylib"], ⟨[], 7⟩),
            (["tree", "sub", "libY.dylib"], ⟨[], 8⟩)] [] [])
        [(Ref.abs ["opt", "libX.dylib"],
            [(["tree", "A.so"], Ref.abs ["opt", "libX.dylib"])]),
          (Ref.abs ["tree", "sub", "libY.dylib"],
            [(["tree", "A.so"], Ref.abs ["tree", "sub", "libY.dylib"])])]
        ["tree", ".dylibs"] ["tree"]
        = (fs', .ok ((extEntries ["tree"]
            [(Ref.abs ["opt", "libX.dylib"],
                [(["tree", "A.so"], Ref.abs ["opt", "libX.dylib"])]),
              (Ref.abs ["tree", "sub", "libY.dylib"],
                [(["tree", "A.so"], Ref.abs ["tree", "sub", "libY.dylib"])])]).map
            fun c => (c.1, DepVal.dictV c.2))) ∧
      (∀ pr ∈ extEntries ["tree"]
          [(Ref.abs ["opt", "libX.dylib"],
              [(["tree", "A.so"], Ref.abs ["opt", "libX.dylib"])]),
            (Ref.abs ["tree", "sub", "libY.dylib"],
              [(["tree", "A.so"], Ref.abs ["tree", "sub", "libY.dylib"])])],
        alook fs'.files (pjoin ["tree", ".dylibs"] (basename pr.1))
          = alook (FS.mk
              [(["tree", "A.so"],
                  ⟨[Ref.abs ["opt", "libX.dylib"], Ref.abs ["tree", "sub", "libY.dylib"]], 1⟩),
                (["opt", "libX.dylib"], ⟨[], 7⟩),
                (["tree", "sub", "libY.dylib"], ⟨[], 8⟩)] [] []).files pr.1) ∧
      (∀ f, (∀ pr ∈ extEntries ["tree"]
            [(Ref.abs ["opt", "libX.dylib"],
                [(["tree", "A.so"], Ref.abs ["opt", "libX.dylib"])]),
              (Ref.abs ["tree", "sub", "libY.dylib"],
                [(["tree", "A.so"], Ref.abs ["tree", "sub", "libY.dylib"])])],
          f ≠ pjoin ["tree", ".dylibs"] (basename pr.1)) →
        ∀ fd, alook (FS.mk
            [(["tree", "A.so"],
                ⟨[Ref.abs ["opt", "libX.dylib"], Ref.abs ["tree", "sub", "libY.dylib"]], 1⟩),
              (["opt", "libX.dylib"], ⟨[], 7⟩),
              (["tree", "sub", "libY.dylib"], ⟨[], 8⟩)] [] []).files f = some fd →
        alook fs'.files f
          = some ⟨fd.names.map (substFor
              [(Ref.abs ["opt", "libX.dylib"],
                  [(["tree", "A.so"], Ref.abs ["opt", "libX.dylib"])]),
                (Ref.abs ["tree", "sub", "libY.dylib"],
                  [(["tree", "A.so"], Ref.abs ["tree", "sub", "libY.dylib"])])]
              ["tree", ".dylibs"] ["tree"]
              (nonAtKeys
                [(Ref.abs ["opt", "libX.dylib"],
                    [(["tree", "A.so"], Ref.abs ["opt", "libX.dylib"])]),
                  (Ref.abs ["tree", "sub", "libY.dylib"],
                    [(["tree", "A.so"], Ref.abs ["tree", "sub", "libY.dylib"])])]) f),
              fd.tag⟩) := by
  refine ⟨rfl, ?_⟩
  exact delocate_tree_libs_executor _ _ _ _
    rfl
    (by decide)
    (by decide)
    (req_ex_of_bounded _ _ (by decide))
    (by decide)
    (by decide)
    (by decide)
    (src_ex_of_bounded _ _ (by decide))
    (by decide)

/-- Python `set.add` semantics for building a set from a generator:
keep first occurrence, preserve encounter order. -/
def insertIfAbsent (l : List Path) (x : Path) : List Path :=
  if x ∈ l then l else l ++ [x]

/-- `set(copied2orig.get(r, r) for r in requirings)` of `_copy_required`
(line 184): translate each depending file through the copied-to-original
map, falling back to the path itself. -/
def procdSet (c2o : List (Path × Path)) (requirings : List (Path × Ref)) : List Path :=
  requirings.foldl (fun acc fr => insertIfAbsent acc ((alook c2o fr.1).getD fr.1)) []

/-- The elements of an index value (iterating a Python dict yields its
keys; iterating a set yields its elements). -/
def DepVal.depsOf : DepVal → List Path
  | .dictV l => l.map Prod.fst
  | .setV s => s

/-- The skip test of `_copy_required`'s loop (line 169):
`not copy_filt_func is None and not copy_filt_func(required)`. -/
def filtSkip (copy_filt : Option (Ref → Bool)) (req : Ref) : Bool :=
  match copy_filt with
  | some f => !f req
  | none => false

/-- The body of `_copy_required`'s main loop (delocating.py lines
168-190), one graph item at a time, threading the filesystem, the
copied-to-original translation dict and the index; any rewrite or copy
failure aborts with the partially updated state, and a `dict | set`
union raises `TypeError`. -/
def copyReqLoop (lib_path : Path) (copy_filt : Option (Ref → Bool)) :
    FS → List (Path × Path) → Copied → List (Ref × Inner) →
    FS × Copied × Except Err Unit
  | fs, _, copied, [] => (fs, copied, .ok ())
  | fs, c2o, copied, (req, requirings) :: rest =>
      if filtSkip copy_filt req then
        copyReqLoop lib_path copy_filt fs c2o copied rest
      else
        match req with
        | .at_ _ => copyReqLoop lib_path copy_filt fs c2o copied rest
        | .abs p =>
            match rewriteList (Ref.abs p)
                (fun _ => Ref.at_ ["loader_path", basename p]) fs requirings with
            | (fs2, .error e) => (fs2, copied, .error e)
            | (fs2, .ok _) =>
                if p ∈ copied.map Prod.fst then
                  match DepVal.union ((alook copied p).getD (DepVal.setV []))
                      (DepVal.setV (procdSet c2o requirings)) with
                  | .error e => (fs2, copied, .error e)
                  | .ok v =>
                      copyReqLoop lib_path copy_filt fs2 c2o (dupdate copied p v) rest
                else
                  match copy2 fs2 p lib_path with
                  | .error e => (fs2, copied, .error e)
                  | .ok fs3 =>
                      copyReqLoop lib_path copy_filt fs3
                        (dupdate c2o (pjoin lib_path (basename p)) p)
                        (copied ++ [(p, DepVal.setV (procdSet c2o requirings))]) rest

/-- `delocating._copy_required`: one pass of `copy_recurse` — scan
`lib_path` (with no inspection filter), build the copied-to-original
translation from the current index, then process every discovered
required library in graph order. -/
def copy_required_pass (fs : FS) (lib_path : Path) (copy_filt : Option (Ref → Bool))
    (copied : Copied) : FS × Copied × Except Err Unit :=
  copyReqLoop lib_path copy_filt fs
    (copied.foldl (fun m c => dupdate m (pjoin lib_path (basename c.1)) c.1) [])
    copied (tree_libs fs lib_path none)

lemma dupdate_mem {α β : Type} [DecidableEq α] {l : List (α × β)} {a : α} {b : β}
    {e : α × β} (h : e ∈ dupdate l a b) : e ∈ l ∨ e = (a, b) := by
  induction l with
  | nil => simpa [dupdate] using h
  | cons kv rest ih =>
      obtain ⟨k, v⟩ := kv
      by_cases hk : k = a
      · subst hk
        rw [show dupdate ((k, v) :: rest) k b = (k, b) :: rest from by simp [dupdate]] at h
        rcases List.mem_cons.mp h with h | h
        · exact Or.inr h
        · exact Or.inl (List.mem_cons_of_mem _ h)
      · rw [show dupdate ((k, v) :: rest) a b = (k, v) :: dupdate rest a b from by
          simp [dupdate, hk]] at h
        rcases List.mem_cons.mp h with h | h
        · exact Or.inl (h ▸ List.mem_cons_self _ _)
        · rcases ih h with h | h
          · exact Or.inl (List.mem_cons_of_mem _ h)
          · exact Or.inr h

lemma dupdate_keys {α β : Type} [DecidableEq α] (l : List (α × β)) (a : α) (b : β) :
    (dupdate l a b).map Prod.fst
      = if a ∈ l.map Prod.fst then l.map Prod.fst else l.map Prod.fst ++ [a] := by
  induction l with
  | nil => simp [dupdate]
  | cons kv rest ih =>
      obtain ⟨k, v⟩ := kv
      by_cases hk : k = a
      · subst hk
        simp [dupdate]
      · rw [show dupdate ((k, v) :: rest) a b = (k, v) :: dupdate rest a b from by
          simp [dupdate, hk]]
        simp only [List.map_cons]
        rw [ih]
        by_cases hmem : a ∈ rest.map Prod.fst
        · rw [if_pos hmem, if_pos (by simp [hmem])]
        · rw [if_neg hmem, if_neg (by simp [hmem, Ne.symm hk])]
          simp

/-- All non-`@` canonical library identities recorded anywhere in the
state: the universe from which `copy_recurse` can draw new index keys. -/
def nonAtIds (fs : FS) : List Path :=
  fs.files.flatMap fun pf => pf.2.names.filterMap fun n =>
    match n with
    | .at_ _ => none
    | .abs p => some (realpath fs p)

lemma mem_nonAtIds (fs : FS) (x : Path) :
    x ∈ nonAtIds fs ↔ ∃ pf ∈ fs.files, ∃ q, Ref.abs q ∈ pf.2.names ∧ x = realpath fs q := by
  unfold nonAtIds
  rw [List.mem_flatMap]
  constructor
  · rintro ⟨pf, hpf, hx⟩
    rw [List.mem_filterMap] at hx
    obtain ⟨n, hn, hnx⟩ := hx
    match n with
    | .at_ s => simp at hnx
    | .abs q =>
        simp only [Option.some.injEq] at hnx
        exact ⟨pf, hpf, q, hn, hnx.symm⟩
  · rintro ⟨pf, hpf, q, hq, hx⟩
    exact ⟨pf, hpf, List.mem_filterMap.mpr ⟨Ref.abs q, hq, by rw [hx]⟩⟩

lemma realpath_congr {g g' : FS} (h : g'.links = g.links) (p : Path) :
    realpath g' p = realpath g p := by
  simp [realpath, h]

lemma set_install_name_inv {g g' : FS} {f : Path} {old new : Ref}
    (h : set_install_name g f old new = .ok g') :
    g'.links = g.links ∧ g'.dirs = g.dirs ∧
    ∃ fd, alook g.files (realpath g f) = some fd ∧
      g'.files = dupdate g.files (realpath g f)
        ⟨fd.names.map fun n => if n = old then new else n, fd.tag⟩ := by
  unfold set_install_name FS.lookup at h
  cases hk : alook g.files (realpath g f) with
  | none =>
      rw [hk] at h
      simp at h
  | some fd =>
      simp only [hk] at h
      by_cases hm : old ∈ fd.names
      · rw [if_pos hm] at h
        injection h with h
        subst h
        exact ⟨rfl, rfl, fd, rfl, rfl⟩
      · rw [if_neg hm] at h
        simp at h

lemma copy2_inv {g g' : FS} {src dstDir : Path} (h : copy2 g src dstDir = .ok g') :
    g'.links = g.links ∧ g'.dirs = g.dirs ∧
    ∃ fd, alook g.files (realpath g src) = some fd ∧
      g'.files = dupdate g.files (realpath g (pjoin dstDir (basename src))) fd := by
  unfold copy2 FS.lookup at h
  cases hk : alook g.files (realpath g src) with
  | none =>
      rw [hk] at h
      simp at h
  | some fd =>
      simp only [hk] at h
      injection h with h
      subst h
      exact ⟨rfl, rfl, fd, rfl, rfl⟩

lemma nonAtIds_sub_of_fields {g g' : FS} {key : Path} {fd1 : FileData}
    (hfiles : g'.files = dupdate g.files key fd1) (hlinks : g'.links = g.links)
    (hsub : ∀ q, Ref.abs q ∈ fd1.names → ∃ pf ∈ g.files, Ref.abs q ∈ pf.2.names) :
    ∀ x, x ∈ nonAtIds g' → x ∈ nonAtIds g := by
  intro x hx
  rw [mem_nonAtIds] at hx
  obtain ⟨pf, hpf, q, hq, hxq⟩ := hx
  rw [hfiles] at hpf
  rw [realpath_congr hlinks] at hxq
  rcases dupdate_mem hpf with hpf | hpf
  · exact (mem_nonAtIds g x).mpr ⟨pf, hpf, q, hq, hxq⟩
  · subst hpf
    obtain ⟨pf', hpf', hq'⟩ := hsub q hq
    exact (mem_nonAtIds g x).mpr ⟨pf', hpf', q, hq', hxq⟩

lemma rewriteList_sub (old : Ref) (nref : Path → Ref)
    (hn : ∀ f, (nref f).isAt = true) :
    ∀ (rsl : List (Path × Ref)) (g : FS),
      (rewriteList old nref g rsl).1.links = g.links ∧
      (rewriteList old nref g rsl).1.dirs = g.dirs ∧
      ∀ x, x ∈ nonAtIds (rewriteList old nref g rsl).1 → x ∈ nonAtIds g := by
  intro rsl
  induction rsl with
  | nil => exact fun g => ⟨rfl, rfl, fun x hx => hx⟩
  | cons fr rest ih =>
      intro g
      obtain ⟨f0, r0⟩ := fr
      rw [show rewriteList old nref g ((f0, r0) :: rest)
          = (match set_install_name g f0 old (nref f0) with
             | .error e => (g, .error e)
             | .ok fs2 => rewriteList old nref fs2 rest) from rfl]
      cases hs : set_install_name g f0 old (nref f0) with
      | error e => exact ⟨rfl, rfl, fun x hx => hx⟩
      | ok g2 =>
          obtain ⟨hl, hd, fd, hfd, hfiles⟩ := set_install_name_inv hs
          have hsub : ∀ x, x ∈ nonAtIds g2 → x ∈ nonAtIds g := by
            refine nonAtIds_sub_of_fields hfiles hl ?_
            intro q hq
            rw [List.mem_map] at hq
            obtain ⟨n, hn', hnq⟩ := hq
            by_cases hno : n = old
            · subst hno
              rw [if_pos rfl] at hnq
              have := hn f0
              rw [hnq] at this
              simp [Ref.isAt] at this
            · rw [if_neg hno] at hnq
              subst hnq
              exact ⟨(realpath g f0, fd), alook_mem hfd, hn'⟩
          obtain ⟨ihl, ihd, ihsub⟩ := ih g2
          exact ⟨ihl.trans hl, ihd.trans hd, fun x hx => hsub x (ihsub x hx)⟩

lemma copyReqLoop_sub (lp : Path) (filt : Option (Ref → Bool)) :
    ∀ (items : List (Ref × Inner)) (fs : FS) (c2o : List (Path × Path)) (copied : Copied),
      (copyReqLoop lp filt fs c2o copied items).1.links = fs.links ∧
      (copyReqLoop lp filt fs c2o copied items).1.dirs = fs.dirs ∧
      ∀ x, x ∈ nonAtIds (copyReqLoop lp filt fs c2o copied items).1 → x ∈ nonAtIds fs := by
  intro items
  induction items with
  | nil => exact fun fs c2o copied => ⟨rfl, rfl, fun x hx => hx⟩
  | cons kv rest ih =>
      intro fs c2o copied
      obtain ⟨req, requirings⟩ := kv
      unfold copyReqLoop
      split
      · exact ih fs c2o copied
      · split
        · exact ih fs c2o copied
        · rename_i p hskip
          split
          · rename_i fs2 e heq
            have hrw := rewriteList_sub (Ref.abs p)
              (fun _ => Ref.at_ ["loader_path", basename p]) (fun f => rfl) requirings fs
            rw [heq] at hrw
            exact hrw
          · rename_i fs2 u heq
            have hrw := rewriteList_sub (Ref.abs p)
              (fun _ => Ref.at_ ["loader_path", basename p]) (fun f => rfl) requirings fs
            rw [heq] at hrw
            obtain ⟨hl2, hd2, hsub2⟩ := hrw
            split
            · split
              · exact ⟨hl2, hd2, hsub2⟩
              · rename_i v hun
                obtain ⟨ihl, ihd, ihsub⟩ := ih fs2 c2o (dupdate copied p v)
                exact ⟨ihl.trans hl2, ihd.trans hd2, fun x hx => hsub2 x (ihsub x hx)⟩
            · split
              · exact ⟨hl2, hd2, hsub2⟩
              · rename_i fs3 hcp
                obtain ⟨hl3, hd3, fd, hfd, hfiles3⟩ := copy2_inv hcp
                have hsub3 : ∀ x, x ∈ nonAtIds fs3 → x ∈ nonAtIds fs2 := by
                  refine nonAtIds_sub_of_fields hfiles3 hl3 ?_
                  intro q hq
                  exact ⟨(realpath fs2 p, fd), alook_mem hfd, hq⟩
                obtain ⟨ihl, ihd, ihsub⟩ := ih fs3
                  (dupdate c2o (pjoin lp (basename p)) p)
                  (copied ++ [(p, DepVal.setV (procdSet c2o requirings))])
                exact ⟨(ihl.trans hl3).trans hl2, (ihd.trans hd3).trans hd2,
                  fun x hx => hsub2 x (hsub3 x (ihsub x hx))⟩

lemma recordObs_key_mem (fs : FS) (d : LibDict) (o : Path × Ref) (k : Ref) (rs : Inner)
    (h : (k, rs) ∈ recordObs fs d o) :
    (∃ rs', (k, rs') ∈ d) ∨ k = refIdentity fs o.2 := by
  unfold recordObs recordName at h
  cases hl : alook d (refIdentity fs o.2) with
  | some inner =>
      simp only [hl] at h
      rcases dupdate_mem h with h | h
      · exact Or.inl ⟨_, h⟩
      · injection h with h1 h2
        exact Or.inr h1
  | none =>
      simp only [hl] at h
      rcases List.mem_append.mp h with h | h
      · exact Or.inl ⟨_, h⟩
      · have h' := List.mem_singleton.mp h
        injection h' with h1 h2
        exact Or.inr h1

lemma foldl_recordObs_key_mem (fs : FS) :
    ∀ (obs : List (Path × Ref)) (d : LibDict) (k : Ref) (rs : Inner),
      (k, rs) ∈ obs.foldl (recordObs fs) d →
      (∃ rs', (k, rs') ∈ d) ∨ ∃ o ∈ obs, k = refIdentity fs o.2 := by
  intro obs
  induction obs with
  | nil => exact fun d k rs h => Or.inl ⟨rs, h⟩
  | cons o rest ih =>
      intro d k rs h
      rw [List.foldl_cons] at h
      rcases ih (recordObs fs d o) k rs h with ⟨rs', h'⟩ | ⟨o', ho', hk⟩
      · rcases recordObs_key_mem fs d o k rs' h' with h'' | h''
        · exact Or.inl h''
        · exact Or.inr ⟨o, List.mem_cons_self _ _, h''⟩
      · exact Or.inr ⟨o', List.mem_cons_of_mem _ ho', hk⟩

lemma tree_libs_abs_key_mem (fs : FS) (start : Path) (filt : Option (Path → Bool))
    (p : Path) (rs : Inner) (h : (Ref.abs p, rs) ∈ tree_libs fs start filt) :
    p ∈ nonAtIds fs := by
  rw [tree_libs_eq_foldl_obs] at h
  rcases foldl_recordObs_key_mem fs _ [] _ _ h with ⟨rs', h'⟩ | ⟨o, ho, hk⟩
  · simp at h'
  · unfold treeObs at ho
    rw [List.mem_flatMap] at ho
    obtain ⟨pf, hpf, ho2⟩ := ho
    by_cases hpass : passFilt filt (realpath fs pf.1) = true
    · rw [if_pos hpass] at ho2
      rw [List.mem_map] at ho2
      obtain ⟨n, hn, hno⟩ := ho2
      subst hno
      simp only at hk
      match n with
      | .at_ s => simp [refIdentity] at hk
      | .abs q =>
          simp only [refIdentity] at hk
          injection hk with hk
          subst hk
          unfold get_install_names FS.lookup at hn
          cases hfd : alook fs.files (realpath fs pf.1) with
          | none =>
              rw [hfd] at hn
              simp at hn
          | some fd =>
              rw [hfd] at hn
              simp only [Option.map_some', Option.getD_some] at hn
              exact (mem_nonAtIds fs _).mpr
                ⟨(realpath fs pf.1, fd), alook_mem hfd, q, hn, rfl⟩
    · rw [if_neg hpass] at ho2
      simp at ho2

lemma copyReqLoop_keys (lp : Path) (filt : Option (Ref → Bool)) :
    ∀ (items : List (Ref × Inner)) (fs : FS) (c2o : List (Path × Path)) (copied : Copied),
      ∃ ext, ((copyReqLoop lp filt fs c2o copied items).2.1).map Prod.fst
          = copied.map Prod.fst ++ ext ∧
        ∀ k ∈ ext, (∃ rs, (Ref.abs k, rs) ∈ items) ∧ k ∉ copied.map Prod.fst := by
  intro items
  induction items with
  | nil => exact fun fs c2o copied => ⟨[], by simp [copyReqLoop], fun k hk => absurd hk (List.not_mem_nil k)⟩
  | cons kv rest ih =>
      intro fs c2o copied
      obtain ⟨req, requirings⟩ := kv
      unfold copyReqLoop
      split
      · obtain ⟨ext, h1, h2⟩ := ih fs c2o copied
        refine ⟨ext, h1, fun k hk => ?_⟩
        obtain ⟨⟨rs0, hrs0⟩, hk2⟩ := h2 k hk
        exact ⟨⟨rs0, List.mem_cons_of_mem _ hrs0⟩, hk2⟩
      · split
        · obtain ⟨ext, h1, h2⟩ := ih fs c2o copied
          refine ⟨ext, h1, fun k hk => ?_⟩
          obtain ⟨⟨rs0, hrs0⟩, hk2⟩ := h2 k hk
          exact ⟨⟨rs0, List.mem_cons_of_mem _ hrs0⟩, hk2⟩
        · rename_i p hskip
          split
          · exact ⟨[], by simp, fun k hk => absurd hk (List.not_mem_nil k)⟩
          · rename_i fs2 u heq
            split
            · rename_i hmem
              split
              · exact ⟨[], by simp, fun k hk => absurd hk (List.not_mem_nil k)⟩
              · rename_i v hun
                obtain ⟨ext, h1, h2⟩ := ih fs2 c2o (dupdate copied p v)
                rw [dupdate_keys, if_pos hmem] at h1
                refine ⟨ext, h1, fun k hk => ?_⟩
                have h2' := h2 k hk
                rw [dupdate_keys, if_pos hmem] at h2'
                obtain ⟨⟨rs0, hrs0⟩, hk2⟩ := h2'
                exact ⟨⟨rs0, List.mem_cons_of_mem _ hrs0⟩, hk2⟩
            · rename_i hmem
              split
              · exact ⟨[], by simp, fun k hk => absurd hk (List.not_mem_nil k)⟩
              · rename_i fs3 hcp
                obtain ⟨ext, h1, h2⟩ := ih fs3
                  (dupdate c2o (pjoin lp (basename p)) p)
                  (copied ++ [(p, DepVal.setV (procdSet c2o requirings))])
                refine ⟨p :: ext, ?_, ?_⟩
                · rw [h1]
                  simp
                · intro k hk
                  rcases List.mem_cons.mp hk with hkp | hk
                  · subst hkp
                    exact ⟨⟨requirings, List.mem_cons_self _ _⟩, hmem⟩
                  · obtain ⟨⟨rs0, hrs0⟩, hk2⟩ := h2 k hk
                    refine ⟨⟨rs0, List.mem_cons_of_mem _ hrs0⟩, ?_⟩
                    intro hkc
                    exact hk2 (by
                      rw [List.map_append]
                      exact List.mem_append_left _ hkc)

/-- The termination measure of the `copy_recurse` loop: how many
non-`@` identities recorded in the state are not yet index keys. -/
def crMeasure (fs : FS) (copied : Copied) : Nat :=
  ((nonAtIds fs).toFinset \ (copied.map Prod.fst).toFinset).card

lemma copyRequired_measure {fs : FS} {lp : Path} {filt : Option (Ref → Bool)}
    {copied : Copied} {fs2 : FS} {copied2 : Copied} {r : Except Err Unit}
    (h : copy_required_pass fs lp filt copied = (fs2, copied2, r))
    (hlen : copied2.length ≠ copied.length) :
    crMeasure fs2 copied2 < crMeasure fs copied := by
  obtain ⟨ext, hkeys, hext⟩ := copyReqLoop_keys lp filt (tree_libs fs lp none) fs
    (copied.foldl (fun m c => dupdate m (pjoin lp (basename c.1)) c.1) []) copied
  obtain ⟨hlinks, hdirs, hsub⟩ := copyReqLoop_sub lp filt (tree_libs fs lp none) fs
    (copied.foldl (fun m c => dupdate m (pjoin lp (basename c.1)) c.1) []) copied
  unfold copy_required_pass at h
  rw [h] at hkeys hsub
  simp only at hkeys hsub
  have hextne : ext ≠ [] := by
    intro hnil
    rw [hnil, List.append_nil] at hkeys
    apply hlen
    have := congrArg List.length hkeys
    simpa using this
  obtain ⟨k, hkmem⟩ := List.exists_mem_of_ne_nil ext hextne
  obtain ⟨⟨rsk, hrsk⟩, hknot⟩ := hext k hkmem
  have hknonAt : k ∈ nonAtIds fs := tree_libs_abs_key_mem fs lp none k rsk hrsk
  have hksub : (nonAtIds fs2).toFinset \ (copied2.map Prod.fst).toFinset
      ⊆ (nonAtIds fs).toFinset \ (copied.map Prod.fst).toFinset := by
    intro x hx
    rw [Finset.mem_sdiff] at hx ⊢
    obtain ⟨hx1, hx2⟩ := hx
    rw [List.mem_toFinset] at hx1
    constructor
    · rw [List.mem_toFinset]
      exact hsub x hx1
    · intro hxc
      apply hx2
      rw [List.mem_toFinset] at hxc ⊢
      rw [hkeys]
      exact List.mem_append_left _ hxc
  have hkin : k ∈ (nonAtIds fs).toFinset \ (copied.map Prod.fst).toFinset := by
    rw [Finset.mem_sdiff, List.mem_toFinset, List.mem_toFinset]
    exact ⟨hknonAt, hknot⟩
  have hkout : k ∉ (nonAtIds fs2).toFinset \ (copied2.map Prod.fst).toFinset := by
    rw [Finset.mem_sdiff]
    rintro ⟨-, hk2⟩
    apply hk2
    rw [List.mem_toFinset, hkeys]
    exact List.mem_append_right _ hkmem
  unfold crMeasure
  exact Finset.card_lt_card ((Finset.ssubset_iff_of_subset hksub).mpr
    ⟨k, hkin, hkout⟩)

/-- `delocating.copy_recurse`, instrumented with the number of
`_copy_required` passes executed (the first component); dropping that
count gives exactly the source's loop: run a pass, stop when the index
has not grown (`done = len(copied_libs) == in_len`), propagate a pass
failure.  Totality of this definition is the termination claim: the
loop measure `crMeasure` strictly decreases on every repeated pass. -/
def copy_recurseN (lib_path : Path) (copy_filt : Option (Ref → Bool)) :
    FS → Copied → Nat × FS × Except Err Copied
  | fs, copied =>
      match hpass : copy_required_pass fs lib_path copy_filt copied with
      | (fs2, _, .error e) => (1, fs2, .error e)
      | (fs2, copied2, .ok _) =>
          if hlen : copied2.length = copied.length then (1, fs2, .ok copied2)
          else
            let r := copy_recurseN lib_path copy_filt fs2 copied2
            (r.1 + 1, r.2)
termination_by fs copied => crMeasure fs copied
decreasing_by exact copyRequired_measure hpass hlen

/-- `delocating.copy_recurse` (the loop of lines 131-140): iterate
`_copy_required` until one pass adds no new index entries. -/
def copy_recurse (fs : FS) (lib_path : Path) (copy_filt : Option (Ref → Bool))
    (copied : Copied) : FS × Except Err Copied :=
  (copy_recurseN lib_path copy_filt fs copied).2

lemma copy_recurseN_error {lp : Path} {filt : Option (Ref → Bool)} {fs : FS}
    {copied : Copied} {fs2 : FS} {copied2 : Copied} {e : Err}
    (h : copy_required_pass fs lp filt copied = (fs2, copied2, .error e)) :
    copy_recurseN lp filt fs copied = (1, fs2, .error e) := by
  unfold copy_recurseN
  split
  · rename_i fs2' c2' e' hpass
    rw [h] at hpass
    injection hpass with h1 hpass
    injection hpass with h2 hpass
    injection hpass with h3
    subst h1
    subst h3
    rfl
  · rename_i fs2' c2' u hpass
    rw [h] at hpass
    injection hpass with h1 hpass
    injection hpass with h2 hpass
    simp at hpass

lemma copy_recurseN_stop {lp : Path} {filt : Option (Ref → Bool)} {fs : FS}
    {copied : Copied} {fs2 : FS} {copied2 : Copied} {u : Unit}
    (h : copy_required_pass fs lp filt copied = (fs2, copied2, .ok u))
    (hlen : copied2.length = copied.length) :
    copy_recurseN lp filt fs copied = (1, fs2, .ok copied2) := by
  unfold copy_recurseN
  split
  · rename_i fs2' c2' e' hpass
    rw [h] at hpass
    injection hpass with h1 hpass
    injection hpass with h2 hpass
    simp at hpass
  · rename_i fs2' c2' u' hpass
    rw [h] at hpass
    injection hpass with h1 hpass
    injection hpass with h2 hpass
    subst h1
    subst h2
    rw [dif_pos hlen]

lemma copy_recurseN_continue {lp : Path} {filt : Option (Ref → Bool)} {fs : FS}
    {copied : Copied} {fs2 : FS} {copied2 : Copied} {u : Unit}
    (h : copy_required_pass fs lp filt copied = (fs2, copied2, .ok u))
    (hlen : copied2.length ≠ copied.length) :
    copy_recurseN lp filt fs copied
      = ((copy_recurseN lp filt fs2 copied2).1 + 1,
          (copy_recurseN lp filt fs2 copied2).2) := by
  conv_lhs => unfold copy_recurseN
  split
  · rename_i fs2' c2' e' hpass
    rw [h] at hpass
    injection hpass with h1 hpass
    injection hpass with h2 hpass
    simp at hpass
  · rename_i fs2' c2' u' hpass
    rw [h] at hpass
    injection hpass with h1 hpass
    injection hpass with h2 hpass
    subst h1
    subst h2
    rw [dif_neg hlen]

/-- `delocating._dylibs_only`: inspect only files whose name ends in
`.so` or `.dylib` (a string-suffix test only touches the final path
component). -/
def dylibs_only (filename : Path) : Bool :=
  strEnds ".so" (basename filename) || strEnds ".dylib" (basename filename)

/-- `delocating.filter_system_libs`: reject references beginning with
`/usr/lib` or `/System` (component-wise prefix on the embedded paths);
`@`-references never start with a slash, so they pass. -/
def filter_system_libs (libname : Ref) : Bool :=
  match libname with
  | .at_ _ => true
  | .abs p => !(isPre ["usr", "lib"] p || isPre ["System"] p)

/-- `delocating.delocate_path`: create `lib_path` when missing, scan
the tree, drop graph entries rejected by the copy filter, run
`delocate_tree_libs`, then iterate `copy_recurse` over `lib_path`. -/
def delocate_path (fs : FS) (tree_path lib_path : Path)
    (lib_filt : Option (Path → Bool)) (copy_filt : Option (Ref → Bool)) :
    FS × Except Err Copied :=
  let fs1 := if fs.existsPath lib_path then fs else makedirs fs lib_path
  let ld := tree_libs fs1 tree_path lib_filt
  let ld2 := match copy_filt with
    | some f => ld.filter fun kv => f kv.1
    | none => ld
  match delocate_tree_libs fs1 ld2 lib_path tree_path with
  | (fs2, .error e) => (fs2, .error e)
  | (fs2, .ok copied) => copy_recurse fs2 lib_path copy_filt copied

/-- C2 (as amended).  `copy_recurse` terminates for every input: it is
the (total) well-founded recursion `copy_recurseN` whose measure
`crMeasure` — the number of recorded non-`@` identities not yet index
keys — strictly decreases on every repeated pass.  Its loop stops
exactly when one pass adds no new index entries: a successful pass only
appends new keys (first conjunct), the loop runs exactly one pass iff
the key count is unchanged — in particular a pass that merely updates
existing entries' depender sets ends the loop with no further pass —
and otherwise recurses with the pass count increased by one. -/
theorem copy_recurse_fixed_point {lp : Path} {filt : Option (Ref → Bool)} {fs : FS}
    {copied : Copied} {fs2 : FS} {copied2 : Copied} {u : Unit}
    (h : copy_required_pass fs lp filt copied = (fs2, copied2, .ok u)) :
    (∃ ext, copied2.map Prod.fst = copied.map Prod.fst ++ ext
        ∧ (copied2.length = copied.length ↔ ext = []))
    ∧ (copied2.length = copied.length →
        copy_recurseN lp filt fs copied = (1, fs2, .ok copied2))
    ∧ (copied2.length ≠ copied.length →
        copy_recurseN lp filt fs copied
          = ((copy_recurseN lp filt fs2 copied2).1 + 1,
              (copy_recurseN lp filt fs2 copied2).2)) := by
  refine ⟨?_, fun hlen => copy_recurseN_stop h hlen,
    fun hlen => copy_recurseN_continue h hlen⟩
  obtain ⟨ext, hkeys, -⟩ := copyReqLoop_keys lp filt (tree_libs fs lp none) fs
    (copied.foldl (fun m c => dupdate m (pjoin lp (basename c.1)) c.1) []) copied
  unfold copy_required_pass at h
  rw [h] at hkeys
  simp only at hkeys
  refine ⟨ext, hkeys, ?_⟩
  have hlen2 : copied2.length = copied.length + ext.length := by
    have := congrArg List.length hkeys
    simpa using this
  constructor
  · intro hl
    rw [hl] at hlen2
    have : ext.length = 0 := by omega
    exact List.length_eq_zero.mp this
  · intro hnil
    rw [hnil] at hlen2
    simpa using hlen2

/-- Witness for C2 at a concrete input: on an empty filesystem a pass
adds nothing and the loop stops after exactly one pass. -/
theorem copy_recurse_fixed_point_witness :
    copy_required_pass (FS.mk [] [] []) ["lib"] none []
        = (FS.mk [] [] [], [], .ok ())
    ∧ ((∃ ext, ([] : Copied).map Prod.fst = ([] : Copied).map Prod.fst ++ ext
          ∧ (([] : Copied).length = ([] : Copied).length ↔ ext = []))
      ∧ (([] : Copied).length = ([] : Copied).length →
          copy_recurseN ["lib"] none (FS.mk [] [] []) []
            = (1, FS.mk [] [] [], .ok ([] : Copied)))
      ∧ (([] : Copied).length ≠ ([] : Copied).length →
          copy_recurseN ["lib"] none (FS.mk [] [] []) []
            = ((copy_recurseN ["lib"] none (FS.mk [] [] []) []).1 + 1,
                (copy_recurseN ["lib"] none (FS.mk [] [] []) []).2))) :=
  ⟨by decide, copy_recurse_fixed_point (u := ()) (by decide)⟩

/-- Counterexample to C2 as stated.  The index holds one entry for
`/opt/liba.dylib`; the pass discovers a new depending file
`/lib/libb.dylib` for that same entry and merges it into the depender
set without adding any key, so the pass changes the index — yet the
loop stops after exactly this one pass (pass count 1), not after "at
least one further pass" as the claim requires. -/
theorem copy_recurse_update_only_single_pass :
    copy_recurseN ["lib"] none
        (FS.mk [(["lib", "libb.dylib"], ⟨[Ref.abs ["opt", "liba.dylib"]], 3⟩)] [] [])
        [(["opt", "liba.dylib"], DepVal.setV [["opt", "dep0.so"]])]
      = (1,
          FS.mk [(["lib", "libb.dylib"], ⟨[Ref.at_ ["loader_path", "liba.dylib"]], 3⟩)] [] [],
          .ok [(["opt", "liba.dylib"],
            DepVal.setV [["opt", "dep0.so"], ["lib", "libb.dylib"]])])
    ∧ ([(["opt", "liba.dylib"],
          DepVal.setV [["opt", "dep0.so"], ["lib", "libb.dylib"]])] : Copied)
        ≠ [(["opt", "liba.dylib"], DepVal.setV [["opt", "dep0.so"]])] := by
  constructor
  · exact copy_recurseN_stop (u := ()) (by decide) (by decide)
  · decide

/-- C4 is violated by the code.  `delocate_tree_libs` stores the
requiring dict itself as each index value (a Python dict mapping
depending file to install name, not a set of depending files), and as
soon as `copy_recurse` re-observes such a library — here the copied
`libb.dylib` depends on the already-copied `liba.dylib` — the merge
`copied_libs[required] | procd_requirings` applies `|` to a dict and a
set, which raises `TypeError` instead of performing an idempotent set
union. -/
theorem delocate_path_union_type_error :
    ∃ fs', delocate_path
        (FS.mk
          [(["tree", "T.so"],
              ⟨[Ref.abs ["opt", "liba.dylib"], Ref.abs ["opt", "libb.dylib"]], 1⟩),
            (["opt", "liba.dylib"], ⟨[], 2⟩),
            (["opt", "libb.dylib"], ⟨[Ref.abs ["opt", "liba.dylib"]], 3⟩)] [] [])
        ["tree"] ["tree", ".dylibs"] (some dylibs_only) (some filter_system_libs)
      = (fs', .error .typeError) := by
  refine ⟨FS.mk
    [(["tree", "T.so"],
        ⟨[Ref.at_ ["loader_path", ".dylibs", "liba.dylib"],
          Ref.at_ ["loader_path", ".dylibs", "libb.dylib"]], 1⟩),
      (["opt", "liba.dylib"], ⟨[], 2⟩),
      (["opt", "libb.dylib"], ⟨[Ref.abs ["opt", "liba.dylib"]], 3⟩),
      (["tree", ".dylibs", "liba.dylib"], ⟨[], 2⟩),
      (["tree", ".dylibs", "libb.dylib"], ⟨[Ref.at_ ["loader_path", "liba.dylib"]], 3⟩)]
    [["tree", ".dylibs"]] [], ?_⟩
  have hstep : delocate_path
      (FS.mk
        [(["tree", "T.so"],
            ⟨[Ref.abs ["opt", "liba.dylib"], Ref.abs ["opt", "libb.dylib"]], 1⟩),
          (["opt", "liba.dylib"], ⟨[], 2⟩),
          (["opt", "libb.dylib"], ⟨[Ref.abs ["opt", "liba.dylib"]], 3⟩)] [] [])
      ["tree"] ["tree", ".dylibs"] (some dylibs_only) (some filter_system_libs)
    = copy_recurse
        (FS.mk
          [(["tree", "T.so"],
              ⟨[Ref.at_ ["loader_path", ".dylibs", "liba.dylib"],
                Ref.at_ ["loader_path", ".dylibs", "libb.dylib"]], 1⟩),
            (["opt", "liba.dylib"], ⟨[], 2⟩),
            (["opt", "libb.dylib"], ⟨[Ref.abs ["opt", "liba.dylib"]], 3⟩),
            (["tree", ".dylibs", "liba.dylib"], ⟨[], 2⟩),
            (["tree", ".dylibs", "libb.dylib"], ⟨[Ref.abs ["opt", "liba.dylib"]], 3⟩)]
          [["tree", ".dylibs"]] [])
        ["tree", ".dylibs"] (some filter_system_libs)
        [(["opt", "liba.dylib"],
            DepVal.dictV [(["tree", "T.so"], Ref.abs ["opt", "liba.dylib"])]),
          (["opt", "libb.dylib"],
            DepVal.dictV [(["tree", "T.so"], Ref.abs ["opt", "libb.dylib"])])] := rfl
  rw [hstep]
  unfold copy_recurse
  have hpass : copy_required_pass
      (FS.mk
        [(["tree", "T.so"],
            ⟨[Ref.at_ ["loader_path", ".dylibs", "liba.dylib"],
              Ref.at_ ["loader_path", ".dylibs", "libb.dylib"]], 1⟩),
          (["opt", "liba.dylib"], ⟨[], 2⟩),
          (["opt", "libb.dylib"], ⟨[Ref.abs ["opt", "liba.dylib"]], 3⟩),
          (["tree", ".dylibs", "liba.dylib"], ⟨[], 2⟩),
          (["tree", ".dylibs", "libb.dylib"], ⟨[Ref.abs ["opt", "liba.dylib"]], 3⟩)]
        [["tree", ".dylibs"]] [])
      ["tree", ".dylibs"] (some filter_system_libs)
      [(["opt", "liba.dylib"],
          DepVal.dictV [(["tree", "T.so"], Ref.abs ["opt", "liba.dylib"])]),
        (["opt", "libb.dylib"],
          DepVal.dictV [(["tree", "T.so"], Ref.abs ["opt", "libb.dylib"])])]
    = (FS.mk
        [(["tree", "T.so"],
            ⟨[Ref.at_ ["loader_path", ".dylibs", "liba.dylib"],
              Ref.at_ ["loader_path", ".dylibs", "libb.dylib"]], 1⟩),
          (["opt", "liba.dylib"], ⟨[], 2⟩),
          (["opt", "libb.dylib"], ⟨[Ref.abs ["opt", "liba.dylib"]], 3⟩),
          (["tree", ".dylibs", "liba.dylib"], ⟨[], 2⟩),
          (["tree", ".dylibs", "libb.dylib"], ⟨[Ref.at_ ["loader_path", "liba.dylib"]], 3⟩)]
        [["tree", ".dylibs"]] [],
      [(["opt", "liba.dylib"],
          DepVal.dictV [(["tree", "T.so"], Ref.abs ["opt", "liba.dylib"])]),
        (["opt", "libb.dylib"],
          DepVal.dictV [(["tree", "T.so"], Ref.abs ["opt", "libb.dylib"])])],
      .error Err.typeError) := by decide
  rw [copy_recurseN_error hpass]

lemma mem_insertIfAbsent {l : List Path} {x d : Path} (h : d ∈ insertIfAbsent l x) :
    d ∈ l ∨ d = x := by
  unfold insertIfAbsent at h
  split at h
  · exact Or.inl h
  · rcases List.mem_append.mp h with h | h
    · exact Or.inl h
    · exact Or.inr (List.mem_singleton.mp h)

lemma mem_procdSet_aux (c2o : List (Path × Path)) :
    ∀ (rs : List (Path × Ref)) (acc : List Path) (d : Path),
      d ∈ rs.foldl (fun acc fr => insertIfAbsent acc ((alook c2o fr.1).getD fr.1)) acc →
      d ∈ acc ∨ ∃ fr ∈ rs, d = (alook c2o fr.1).getD fr.1 := by
  intro rs
  induction rs with
  | nil => intro acc d h; exact Or.inl h
  | cons fr rest ih =>
      intro acc d h
      rw [List.foldl_cons] at h
      rcases ih _ d h with h | ⟨fr0, hfr0, hd⟩
      · rcases mem_insertIfAbsent h with h | h
        · exact Or.inl h
        · exact Or.inr ⟨fr, List.mem_cons_self _ _, h⟩
      · exact Or.inr ⟨fr0, List.mem_cons_of_mem _ hfr0, hd⟩

lemma mem_procdSet {c2o : List (Path × Path)} {rs : List (Path × Ref)} {d : Path}
    (h : d ∈ procdSet c2o rs) : ∃ fr ∈ rs, d = (alook c2o fr.1).getD fr.1 := by
  unfold procdSet at h
  rcases mem_procdSet_aux c2o rs [] d h with h | h
  · exact absurd h (List.not_mem_nil d)
  · exact h

lemma union_setV_depsOf {a b : List Path} {v : DepVal}
    (h : DepVal.union (DepVal.setV a) (DepVal.setV b) = .ok v) :
    ∀ d ∈ v.depsOf, d ∈ a ∨ d ∈ b := by
  unfold DepVal.union at h
  injection h with h
  subst h
  intro d hd
  unfold DepVal.depsOf at hd
  rcases List.mem_append.mp hd with h | h
  · exact Or.inl h
  · exact Or.inr (List.mem_of_mem_filter h)

lemma procdSet_good (lp : Path) (U : List Path)
    (hU : ∀ c ∈ U, ∀ c' ∈ U, c ≠ pjoin lp (basename c'))
    (c2o : List (Path × Path)) (hran : ∀ e ∈ c2o, e.2 ∈ U)
    (rs : List (Path × Ref))
    (hrr : ∀ fr ∈ rs, alook c2o fr.1 = none → ∀ c ∈ U, fr.1 ≠ pjoin lp (basename c)) :
    ∀ d ∈ procdSet c2o rs, ∀ c ∈ U, d ≠ pjoin lp (basename c) := by
  intro d hd c hc
  obtain ⟨fr, hfr, hdv⟩ := mem_procdSet hd
  cases halk : alook c2o fr.1 with
  | none =>
      rw [halk, Option.getD_none] at hdv
      subst hdv
      exact hrr fr hfr halk c hc
  | some orig =>
      rw [halk, Option.getD_some] at hdv
      subst hdv
      exact hU d (hran _ (alook_mem halk)) c hc

lemma initC2o_mem (lp : Path) :
    ∀ (copied : Copied) (m : List (Path × Path)),
      ∀ e ∈ copied.foldl (fun m c => dupdate m (pjoin lp (basename c.1)) c.1) m,
        e ∈ m ∨ ∃ c ∈ copied.map Prod.fst, e = (pjoin lp (basename c), c) := by
  intro copied
  induction copied with
  | nil => intro m e he; exact Or.inl he
  | cons c0 rest ih =>
      intro m e he
      rw [List.foldl_cons] at he
      rcases ih _ e he with h | ⟨c1, hc1, hec⟩
      · rcases dupdate_mem h with h2 | h2
        · exact Or.inl h2
        · exact Or.inr ⟨c0.1, List.mem_map_of_mem Prod.fst (List.mem_cons_self c0 rest), h2⟩
      · exact Or.inr ⟨c1, List.mem_cons_of_mem _ hc1, hec⟩

lemma copyReqLoop_originals (lp : Path) (filt : Option (Ref → Bool)) (U : List Path)
    (dom0 : List Path)
    (hU : ∀ c ∈ U, ∀ c' ∈ U, c ≠ pjoin lp (basename c')) :
    ∀ (items : List (Ref × Inner)) (fs : FS) (c2o : List (Path × Path)) (copied : Copied),
      (∀ e ∈ c2o, e.2 ∈ U) →
      (∀ a ∈ dom0, a ∈ c2o.map Prod.fst) →
      (∀ kv ∈ copied, ∀ d ∈ kv.2.depsOf, ∀ c ∈ U, d ≠ pjoin lp (basename c)) →
      (∀ k ∈ copied.map Prod.fst, k ∈ U) →
      (∀ e ∈ items, ∀ q, e.1 = Ref.abs q → q ∈ U) →
      (∀ e ∈ items, ∀ fr ∈ e.2, fr.1 ∉ dom0 →
        ∀ c ∈ U, fr.1 ≠ pjoin lp (basename c)) →
      (∀ kv ∈ (copyReqLoop lp filt fs c2o copied items).2.1, ∀ d ∈ kv.2.depsOf,
          ∀ c ∈ U, d ≠ pjoin lp (basename c)) ∧
        (∀ k ∈ ((copyReqLoop lp filt fs c2o copied items).2.1).map Prod.fst, k ∈ U) := by
  intro items
  induction items with
  | nil => intro fs c2o copied hJ1 hJ2 hJ3 hJ4 hik hir; exact ⟨hJ3, hJ4⟩
  | cons kv0 rest ih =>
      intro fs c2o copied hJ1 hJ2 hJ3 hJ4 hik hir
      obtain ⟨req, requirings⟩ := kv0
      unfold copyReqLoop
      split
      · exact ih fs c2o copied hJ1 hJ2 hJ3 hJ4
          (fun e he => hik e (List.mem_cons_of_mem _ he))
          (fun e he => hir e (List.mem_cons_of_mem _ he))
      · split
        · exact ih fs c2o copied hJ1 hJ2 hJ3 hJ4
            (fun e he => hik e (List.mem_cons_of_mem _ he))
            (fun e he => hir e (List.mem_cons_of_mem _ he))
        · rename_i p hskip
          have hp : p ∈ U := hik (Ref.abs p, requirings) (List.mem_cons_self _ _) p rfl
          have hrr : ∀ fr ∈ requirings, alook c2o fr.1 = none →
              ∀ c ∈ U, fr.1 ≠ pjoin lp (basename c) := by
            intro fr hfr halkn c hc
            have hdomn : fr.1 ∉ c2o.map Prod.fst := (alook_eq_none_iff _ _).mp halkn
            exact hir (Ref.abs p, requirings) (List.mem_cons_self _ _) fr hfr
              (fun hd0 => hdomn (hJ2 _ hd0)) c hc
          split
          · exact ⟨hJ3, hJ4⟩
          · rename_i fs2 u heq
            split
            · rename_i hmem
              split
              · exact ⟨hJ3, hJ4⟩
              · rename_i v hun
                apply ih fs2 c2o (dupdate copied p v)
                · exact hJ1
                · exact hJ2
                · intro kv hkv d hd c hc
                  rcases dupdate_mem hkv with hold | hnew
                  · exact hJ3 kv hold d hd c hc
                  · subst hnew
                    cases halk : alook copied p with
                    | none =>
                        rw [halk, Option.getD_none] at hun
                        rcases union_setV_depsOf hun d hd with h | h
                        · exact absurd h (List.not_mem_nil d)
                        · exact procdSet_good lp U hU c2o hJ1 requirings hrr d h c hc
                    | some w =>
                        rw [halk, Option.getD_some] at hun
                        cases w with
                        | dictV l => simp [DepVal.union] at hun
                        | setV s =>
                            rcases union_setV_depsOf hun d hd with h | h
                            · exact hJ3 (p, DepVal.setV s) (alook_mem halk) d h c hc
                            · exact procdSet_good lp U hU c2o hJ1 requirings hrr d h c hc
                · intro k hk
                  rw [dupdate_keys, if_pos hmem] at hk
                  exact hJ4 k hk
                · exact fun e he => hik e (List.mem_cons_of_mem _ he)
                · exact fun e he => hir e (List.mem_cons_of_mem _ he)
            · rename_i hmem
              split
              · exact ⟨hJ3, hJ4⟩
              · rename_i fs3 hcp
                apply ih fs3 (dupdate c2o (pjoin lp (basename p)) p)
                  (copied ++ [(p, DepVal.setV (procdSet c2o requirings))])
                · intro e he
                  rcases dupdate_mem he with hold | hnew
                  · exact hJ1 e hold
                  · rw [hnew]
                    exact hp
                · intro a ha
                  have h0 := hJ2 a ha
                  rw [dupdate_keys]
                  by_cases hm : pjoin lp (basename p) ∈ c2o.map Prod.fst
                  · rw [if_pos hm]
                    exact h0
                  · rw [if_neg hm]
                    exact List.mem_append_left _ h0
                · intro kv hkv d hd c hc
                  rcases List.mem_append.mp hkv with hold | hnew
                  · exact hJ3 kv hold d hd c hc
                  · have hkv2 : kv = (p, DepVal.setV (procdSet c2o requirings)) := by
                      simpa using hnew
                    subst hkv2
                    exact procdSet_good lp U hU c2o hJ1 requirings hrr d hd c hc
                · intro k hk
                  rw [List.map_append] at hk
                  rcases List.mem_append.mp hk with h | h
                  · exact hJ4 k h
                  · have hkp : k = p := by simpa using h
                    rw [hkp]
                    exact hp
                · exact fun e he => hik e (List.mem_cons_of_mem _ he)
                · exact fun e he => hir e (List.mem_cons_of_mem _ he)

/-- The set of library identities that can appear as index keys during
one `_copy_required` pass: the keys already in the index together with
the non-`@` keys of the dependency graph the pass scans. -/
def passUniverse (fs : FS) (lp : Path) (copied : Copied) : List Path :=
  copied.map Prod.fst ++ nonAtKeys (tree_libs fs lp none)

/-- C3.  One pass of `_copy_required` records only original pre-copy
identities as dependers.  When no candidate index key is itself the
in-`lib_path` copy destination of another candidate, incoming depender
sets already hold originals, and every depending file that is not a
recorded copy destination is itself not a copy destination, then every
entry the pass enters into or merges into the index has a depender set
free of in-`lib_path` copy paths: each recorded depender is either an
original translated back through `copied2orig` or a file that collides
with no copy destination. -/
theorem copy_required_records_original_identities
    (fs : FS) (lp : Path) (filt : Option (Ref → Bool)) (copied : Copied)
    (hU : ∀ c ∈ passUniverse fs lp copied, ∀ c' ∈ passUniverse fs lp copied,
        c ≠ pjoin lp (basename c'))
    (hdeps : ∀ kv ∈ copied, ∀ d ∈ kv.2.depsOf,
        ∀ c ∈ passUniverse fs lp copied, d ≠ pjoin lp (basename c))
    (hreq : ∀ e ∈ tree_libs fs lp none, ∀ fr ∈ e.2,
        fr.1 ∉ (copied.foldl (fun m c => dupdate m (pjoin lp (basename c.1)) c.1)
            []).map Prod.fst →
        ∀ c ∈ passUniverse fs lp copied, fr.1 ≠ pjoin lp (basename c)) :
    ∀ kv ∈ (copy_required_pass fs lp filt copied).2.1, ∀ d ∈ kv.2.depsOf,
      ∀ c ∈ ((copy_required_pass fs lp filt copied).2.1).map Prod.fst,
        d ≠ pjoin lp (basename c) := by
  obtain ⟨H3, H4⟩ := copyReqLoop_originals lp filt (passUniverse fs lp copied)
      ((copied.foldl (fun m c => dupdate m (pjoin lp (basename c.1)) c.1) []).map
        Prod.fst)
      hU (tree_libs fs lp none) fs
      (copied.foldl (fun m c => dupdate m (pjoin lp (basename c.1)) c.1) []) copied
      (by
        intro e he
        rcases initC2o_mem lp copied [] e he with h | ⟨c0, hc0, hec⟩
        · exact absurd h (List.not_mem_nil e)
        · rw [hec]
          exact List.mem_append_left _ hc0)
      (fun a ha => ha)
      hdeps
      (fun k hk => List.mem_append_left _ hk)
      (by
        intro e he q hq
        obtain ⟨r0, rs0⟩ := e
        have hq' : r0 = Ref.abs q := hq
        subst hq'
        exact List.mem_append_right _ (nonAtKeys_of_mem he))
      hreq
  intro kv hkv d hd c hc
  exact H3 kv hkv d hd c (H4 c hc)

/-- An input for the original-identities theorem: the index already
holds `/opt/liba.dylib` (copied as `lib/liba.dylib`, depended on by
`pkg/mod.so`); that copy itself depends on `/opt/libz.dylib`. -/
def fsC3 : FS :=
  FS.mk
    [(["lib", "liba.dylib"], ⟨[Ref.abs ["opt", "libz.dylib"]], 1⟩),
      (["opt", "libz.dylib"], ⟨[], 2⟩)]
    [["lib"]] []

def copiedC3 : Copied := [(["opt", "liba.dylib"], DepVal.setV [["pkg", "mod.so"]])]

theorem copy_required_records_original_identities_witness :
    (∀ c ∈ passUniverse fsC3 ["lib"] copiedC3, ∀ c' ∈ passUniverse fsC3 ["lib"] copiedC3,
        c ≠ pjoin ["lib"] (basename c')) ∧
    (∀ kv ∈ copiedC3, ∀ d ∈ kv.2.depsOf,
        ∀ c ∈ passUniverse fsC3 ["lib"] copiedC3, d ≠ pjoin ["lib"] (basename c)) ∧
    (∀ e ∈ tree_libs fsC3 ["lib"] none, ∀ fr ∈ e.2,
        fr.1 ∉ (copiedC3.foldl (fun m c => dupdate m (pjoin ["lib"] (basename c.1)) c.1)
            []).map Prod.fst →
        ∀ c ∈ passUniverse fsC3 ["lib"] copiedC3, fr.1 ≠ pjoin ["lib"] (basename c)) ∧
    ((copy_required_pass fsC3 ["lib"] none copiedC3).2.1
        = [(["opt", "liba.dylib"], DepVal.setV [["pkg", "mod.so"]]),
            (["opt", "libz.dylib"], DepVal.setV [["opt", "liba.dylib"]])] ∧
      ∀ kv ∈ (copy_required_pass fsC3 ["lib"] none copiedC3).2.1, ∀ d ∈ kv.2.depsOf,
        ∀ c ∈ ((copy_required_pass fsC3 ["lib"] none copiedC3).2.1).map Prod.fst,
          d ≠ pjoin ["lib"] (basename c)) :=
  ⟨by decide, by decide, by decide, by decide,
    copy_required_records_original_identities fsC3 ["lib"] none copiedC3
      (by decide) (by decide) (by decide)⟩

lemma delocate_tree_libs_nil (g : FS) (lp tp : Path) :
    delocate_tree_libs g [] lp tp = (g, .ok []) := rfl

lemma delocate_path_eq_some (fs : FS) (tp lp : Path) (lf : Option (Path → Bool))
    (f : Ref → Bool) :
    delocate_path fs tp lp lf (some f)
      = (match delocate_tree_libs (if fs.existsPath lp then fs else makedirs fs lp)
            ((tree_libs (if fs.existsPath lp then fs else makedirs fs lp) tp lf).filter
              fun kv => f kv.1) lp tp with
          | (fs2, .error e) => (fs2, .error e)
          | (fs2, .ok copied) => copy_recurse fs2 lp (some f) copied) := rfl

lemma copyReqLoop_all_skip (lp : Path) (filt : Option (Ref → Bool)) :
    ∀ (items : List (Ref × Inner)) (fs : FS) (c2o : List (Path × Path)) (copied : Copied),
      (∀ e ∈ items, filtSkip filt e.1 = true) →
      copyReqLoop lp filt fs c2o copied items = (fs, copied, .ok ()) := by
  intro items
  induction items with
  | nil => intro fs c2o copied h; rfl
  | cons kv rest ih =>
      intro fs c2o copied h
      obtain ⟨req, requirings⟩ := kv
      unfold copyReqLoop
      rw [if_pos (h (req, requirings) (List.mem_cons_self _ _))]
      exact ih fs c2o copied (fun e he => h e (List.mem_cons_of_mem _ he))

/-- C7 (as amended).  When the copy filter rejects every dependency
discovered in the tree and everything discovered under `lib_path`,
`delocate_path` returns an empty index and leaves the filesystem
untouched except that it ensures `lib_path` exists, creating the
library directory when it is missing (it never removes it; removing an
empty `lib_path` is `delocate_wheel`'s job). -/
theorem delocate_path_all_filtered_empty_index
    (fs : FS) (tp lp : Path) (lf : Option (Path → Bool)) (f : Ref → Bool)
    (hrl : realpath fs lp = lp)
    (hrej : ∀ kv ∈ tree_libs (if fs.existsPath lp then fs else makedirs fs lp) tp lf,
        f kv.1 = false)
    (hrej2 : ∀ kv ∈ tree_libs (if fs.existsPath lp then fs else makedirs fs lp) lp none,
        f kv.1 = false) :
    delocate_path fs tp lp lf (some f)
      = ((if fs.existsPath lp then fs else makedirs fs lp), .ok [])
    ∧ ((delocate_path fs tp lp lf (some f)).1).existsPath lp = true := by
  have hfilt : (tree_libs (if fs.existsPath lp then fs else makedirs fs lp) tp lf).filter
      (fun kv => f kv.1) = [] := by
    rw [List.filter_eq_nil_iff]
    intro a ha
    simp [hrej a ha]
  have hpass : copy_required_pass (if fs.existsPath lp then fs else makedirs fs lp) lp
      (some f) [] = ((if fs.existsPath lp then fs else makedirs fs lp), [], .ok ()) := by
    unfold copy_required_pass
    exact copyReqLoop_all_skip lp (some f)
      (tree_libs (if fs.existsPath lp then fs else makedirs fs lp) lp none)
      (if fs.existsPath lp then fs else makedirs fs lp) [] []
      (fun e he => by simp [filtSkip, hrej2 e he])
  have hN := copy_recurseN_stop hpass rfl
  have hmain : delocate_path fs tp lp lf (some f)
      = ((if fs.existsPath lp then fs else makedirs fs lp), .ok []) := by
    rw [delocate_path_eq_some]
    simp only [hfilt, delocate_tree_libs_nil]
    unfold copy_recurse
    rw [hN]
  refine ⟨hmain, ?_⟩
  rw [hmain]
  by_cases hex : fs.existsPath lp
  · rw [if_pos hex]
    exact hex
  · rw [if_neg hex]
    unfold FS.existsPath
    rw [Bool.or_eq_true]
    right
    show decide (realpath (makedirs fs lp) lp ∈ (makedirs fs lp).dirs) = true
    rw [@realpath_congr fs (makedirs fs lp) rfl lp, hrl]
    simp [makedirs]

/-- An input for the C7 theorems: a tree whose only dependency is the
system library `/usr/lib/libSystem.dylib`, rejected by the default copy
filter; the library directory `tree/.dylibs` does not exist yet. -/
def fsC7 : FS :=
  FS.mk
    [(["tree", "mod.so"], ⟨[Ref.abs ["usr", "lib", "libSystem.dylib"]], 1⟩),
      (["usr", "lib", "libSystem.dylib"], ⟨[], 2⟩)]
    [] []

theorem delocate_path_all_filtered_empty_index_witness :
    (realpath fsC7 ["tree", ".dylibs"] = ["tree", ".dylibs"]
      ∧ (∀ kv ∈ tree_libs (if fsC7.existsPath ["tree", ".dylibs"] then fsC7
            else makedirs fsC7 ["tree", ".dylibs"]) ["tree"] (some dylibs_only),
          filter_system_libs kv.1 = false)
      ∧ (∀ kv ∈ tree_libs (if fsC7.existsPath ["tree", ".dylibs"] then fsC7
            else makedirs fsC7 ["tree", ".dylibs"]) ["tree", ".dylibs"] none,
          filter_system_libs kv.1 = false))
    ∧ (delocate_path fsC7 ["tree"] ["tree", ".dylibs"] (some dylibs_only)
          (some filter_system_libs)
        = ((if fsC7.existsPath ["tree", ".dylibs"] then fsC7
            else makedirs fsC7 ["tree", ".dylibs"]), .ok [])
      ∧ ((delocate_path fsC7 ["tree"] ["tree", ".dylibs"] (some dylibs_only)
          (some filter_system_libs)).1).existsPath ["tree", ".dylibs"] = true) :=
  ⟨⟨by decide, by decide, by decide⟩,
    delocate_path_all_filtered_empty_index fsC7 ["tree"] ["tree", ".dylibs"]
      (some dylibs_only) filter_system_libs (by decide) (by decide) (by decide)⟩

/-- Counterexample to C7 as stated: on a tree depending solely on
`/usr/lib/libSystem.dylib` with the default filter, `delocate_path`
returns an empty index, yet it does create the library directory —
`tree/.dylibs` does not exist beforehand and exists afterwards
(`os.makedirs` runs unconditionally before any filtering; the removal
of an empty `lib_path` lives in `delocate_wheel`, not here). -/
theorem delocate_path_creates_lib_dir :
    fsC7.existsPath ["tree", ".dylibs"] = false
    ∧ (delocate_path fsC7 ["tree"] ["tree", ".dylibs"] (some dylibs_only)
        (some filter_system_libs)).2 = .ok []
    ∧ ((delocate_path fsC7 ["tree"] ["tree", ".dylibs"] (some dylibs_only)
        (some filter_system_libs)).1).existsPath ["tree", ".dylibs"] = true := by
  have hstep : delocate_path fsC7 ["tree"] ["tree", ".dylibs"] (some dylibs_only)
      (some filter_system_libs)
    = copy_recurse (makedirs fsC7 ["tree", ".dylibs"]) ["tree", ".dylibs"]
        (some filter_system_libs) [] := rfl
  have hpass : copy_required_pass (makedirs fsC7 ["tree", ".dylibs"]) ["tree", ".dylibs"]
      (some filter_system_libs) []
    = (makedirs fsC7 ["tree", ".dylibs"], [], .ok ()) := by decide
  have hN := copy_recurseN_stop hpass rfl
  refine ⟨by decide, ?_, ?_⟩
  · rw [hstep]
    unfold copy_recurse
    rw [hN]
  · rw [hstep]
    unfold copy_recurse
    rw [hN]
    decide

/-- The archives visible outside the scoped temporary directory: each
wheel path maps to the tree stored in the archive.  Everything
`delocate_wheel` does between extraction and repacking happens on a
private `FS` value; only `dir2zip` writes back into the world,
modelling the `InTemporaryDirectory` scope of the source. -/
abbrev World := List (Path × FS)

/-- Modelled from the spec: the Archive collaborator's
`expand(archive_path, dest_dir)` — produce the tree stored in the
archive (paths relative to the extraction root), failing when the
archive is missing. -/
def zip2dir (w : World) (p : Path) : Except Err FS :=
  match alook w p with
  | none => .error .zipMissing
  | some fs => .ok fs

/-- Modelled from the spec: the Archive collaborator's
`repack(src_dir, archive_path)` — store the tree as the archive's new
contents. -/
def dir2zip (w : World) (p : Path) (fs : FS) : World := dupdate w p fs

/-- Modelled from the spec: the Package-subdirectory locator
`find_package_dirs(root)` — the top-level directories of the extracted
tree that form installable units, concretized as those containing a
package marker file `__init__.py`. -/
def find_package_dirs (fs : FS) : List Path :=
  fs.dirs.filter fun d => d.length == 1 && fs.existsPath (pjoin d "__init__.py")

/-- `delocating.rewrite_record` (lines 243-289): require exactly one
top-level `*.dist-info` directory (else `DelocationError`), delete the
signature file `RECORD.jws` if present, and rewrite `RECORD` with a
recomputed manifest (its contents are opaque to this development and
stand in as a tag derived from the tree). -/
def rewrite_record (fs : FS) : Except Err FS :=
  match fs.dirs.filter (fun d => d.length == 1 && strEnds ".dist-info" (basename d)) with
  | [info] =>
      let fls := fs.files.filter fun f => decide (f.1 ≠ pjoin info "RECORD.jws")
      .ok ⟨dupdate fls (pjoin info "RECORD") ⟨[], fls.length⟩, fs.dirs, fs.links⟩
  | _ => .error .recordShape

/-- `delocating._merge_lib_dict` (lines 292-298): merge a per-package
index into the run-wide index with `d1[required] | requirings` on
shared keys (raising `TypeError` unless both are sets) and plain
insertion otherwise. -/
def mergeLibDict : Copied → Copied → Except Err Copied
  | d1, [] => .ok d1
  | d1, (req, v) :: rest =>
      if req ∈ d1.map Prod.fst then
        match DepVal.union ((alook d1 req).getD (DepVal.setV [])) v with
        | .error e => .error e
        | .ok v2 => mergeLibDict (dupdate d1 req v2) rest
      else mergeLibDict (dupdate d1 req v) rest

/-- The per-package body of `delocate_wheel`'s loop (lines 351-361):
record whether `package_dir/lib_sdir` exists, run `delocate_path`,
raise `DelocationError` when libraries were copied into a pre-existing
library directory, remove the library directory when `os.listdir`
shows it empty (`os.listdir` itself fails when the path is gone), and
merge the package's index into the accumulator. -/
def processPackage (sdir : String) (lf : Option (Path → Bool)) (cf : Option (Ref → Bool))
    (fs : FS) (acc : Copied) (pkg : Path) : FS × Except Err Copied :=
  match delocate_path fs pkg (pjoin pkg sdir) lf cf with
  | (fs2, .error e) => (fs2, .error e)
  | (fs2, .ok copied) =>
      if copied ≠ [] ∧ fs.existsPath (pjoin pkg sdir) = true then
        (fs2, .error .preexistingLibDir)
      else if fs2.existsPath (pjoin pkg sdir) = false then
        (fs2, .error .listdirMissing)
      else
        let fs3 := if dirEmpty fs2 (pjoin pkg sdir) then rmtree fs2 (pjoin pkg sdir) else fs2
        match mergeLibDict acc copied with
        | .error e => (fs3, .error e)
        | .ok acc2 => (fs3, .ok acc2)

/-- The package loop of `delocate_wheel`, threading the extracted tree
and the run-wide index; the first failing package aborts the run. -/
def processPackages (sdir : String) (lf : Option (Path → Bool)) (cf : Option (Ref → Bool)) :
    FS → Copied → List Path → FS × Except Err Copied
  | fs, acc, [] => (fs, .ok acc)
  | fs, acc, pkg :: rest =>
      match processPackage sdir lf cf fs acc pkg with
      | (fs2, .error e) => (fs2, .error e)
      | (fs2, .ok acc2) => processPackages sdir lf cf fs2 acc2 rest

/-- `delocating.delocate_wheel` (lines 301-366): extract the input
wheel into a scoped temporary directory, process every package
directory, rewrite the record only when something was copied, and
repack (to `out_wheel`, defaulting to in-place) only when something
was copied or the output differs from the input; every failure leaves
the world of archives untouched because all intermediate state lives
in the temporary directory. -/
def delocate_wheel (w : World) (in_wheel : Path) (out_wheel : Option Path)
    (sdir : String) (lf : Option (Path → Bool)) (cf : Option (Ref → Bool)) :
    World × Except Err Copied :=
  match zip2dir w in_wheel with
  | .error e => (w, .error e)
  | .ok fs0 =>
      match processPackages sdir lf cf fs0 [] (find_package_dirs fs0) with
      | (_, .error e) => (w, .error e)
      | (fs1, .ok allCopied) =>
          if allCopied.length ≠ 0 then
            match rewrite_record fs1 with
            | .error e => (w, .error e)
            | .ok fs2 => (dir2zip w (out_wheel.getD in_wheel) fs2, .ok allCopied)
          else if out_wheel.getD in_wheel ≠ in_wheel then
            (dir2zip w (out_wheel.getD in_wheel) fs1, .ok allCopied)
          else (w, .ok allCopied)

lemma set_install_name_no_pre {fs : FS} {p : Path} {old new : Ref} {e : Err}
    (h : set_install_name fs p old new = .error e) : e ≠ .preexistingLibDir := by
  unfold set_install_name at h
  split at h
  · injection h with h2
    subst h2
    decide
  · split at h
    · injection h
    · injection h with h2
      subst h2
      decide

lemma copy2_no_pre {fs : FS} {src dstDir : Path} {e : Err}
    (h : copy2 fs src dstDir = .error e) : e ≠ .preexistingLibDir := by
  unfold copy2 at h
  split at h
  · injection h with h2
    subst h2
    decide
  · injection h

lemma union_no_pre {a b : DepVal} {e : Err}
    (h : DepVal.union a b = .error e) : e ≠ .preexistingLibDir := by
  unfold DepVal.union at h
  split at h
  · injection h
  · injection h with h2
    subst h2
    decide

lemma rewriteList_no_pre (old : Ref) (nf : Path → Ref) :
    ∀ (rs : List (Path × Ref)) (fs fs2 : FS) (e : Err),
      rewriteList old nf fs rs = (fs2, .error e) → e ≠ .preexistingLibDir := by
  intro rs
  induction rs with
  | nil =>
      intro fs fs2 e h
      injection h with h1 h2
      injection h2
  | cons fr rest ih =>
      intro fs fs2 e h
      obtain ⟨rq, rn⟩ := fr
      unfold rewriteList at h
      split at h
      · rename_i e1 heq
        injection h with h1 h2
        injection h2 with h3
        subst h3
        exact set_install_name_no_pre heq
      · exact ih _ _ _ h

lemma planTree_no_pre (g : FS) (root : Path) :
    ∀ (l : List (Ref × Inner)) (bn : List String) (cp : List (Path × Inner))
      (dl : List Path) (e : Err),
      planTree g root l bn cp dl = .error e → e ≠ .preexistingLibDir := by
  intro l
  induction l with
  | nil => intro bn cp dl e h; injection h
  | cons kv rest ih =>
      intro bn cp dl e h
      obtain ⟨req, rs⟩ := kv
      unfold planTree at h
      split at h
      · exact ih _ _ _ _ h
      · split at h
        · split at h
          · injection h with h2
            subst h2
            decide
          · split at h
            · injection h with h2
              subst h2
              decide
            · exact ih _ _ _ _ h
        · exact ih _ _ _ _ h

lemma execCopied_no_pre (lp : Path) :
    ∀ (items : List (Path × Inner)) (fs fs2 : FS) (e : Err),
      execCopied lp fs items = (fs2, .error e) → e ≠ .preexistingLibDir := by
  intro items
  induction items with
  | nil =>
      intro fs fs2 e h
      injection h with h1 h2
      injection h2
  | cons kv rest ih =>
      intro fs fs2 e h
      obtain ⟨p, rs⟩ := kv
      unfold execCopied at h
      split at h
      · rename_i e1 heq
        injection h with h1 h2
        injection h2 with h3
        subst h3
        exact copy2_no_pre heq
      · rename_i g2 heq
        split at h
        · rename_i g3 e1 heq2
          injection h with h1 h2
          injection h2 with h3
          subst h3
          exact rewriteList_no_pre _ _ _ _ _ _ heq2
        · exact ih _ _ _ h

lemma execRelink_no_pre (ld : LibDict) :
    ∀ (items : List Path) (fs fs2 : FS) (e : Err),
      execRelink ld fs items = (fs2, .error e) → e ≠ .preexistingLibDir := by
  intro items
  induction items with
  | nil =>
      intro fs fs2 e h
      injection h with h1 h2
      injection h2
  | cons p rest ih =>
      intro fs fs2 e h
      unfold execRelink at h
      split at h
      · rename_i g2 e1 heq
        injection h with h1 h2
        injection h2 with h3
        subst h3
        exact rewriteList_no_pre _ _ _ _ _ _ heq
      · exact ih _ _ _ h

lemma delocate_tree_libs_no_pre {fs : FS} {ld : LibDict} {lp rt : Path} {fs2 : FS} {e : Err}
    (h : delocate_tree_libs fs ld lp rt = (fs2, .error e)) : e ≠ .preexistingLibDir := by
  unfold delocate_tree_libs at h
  split at h
  · rename_i e1 heq
    injection h with h1 h2
    injection h2 with h3
    subst h3
    exact planTree_no_pre _ _ _ _ _ _ _ heq
  · rename_i pr heq
    split at h
    · rename_i g2 e1 heq2
      injection h with h1 h2
      injection h2 with h3
      subst h3
      exact execCopied_no_pre _ _ _ _ _ heq2
    · rename_i g2 heq2
      split at h
      · rename_i g3 e1 heq3
        injection h with h1 h2
        injection h2 with h3
        subst h3
        exact execRelink_no_pre _ _ _ _ _ heq3
      · injection h with h1 h2
        injection h2

lemma copyReqLoop_no_pre (lp : Path) (filt : Option (Ref → Bool)) :
    ∀ (items : List (Ref × Inner)) (fs : FS) (c2o : List (Path × Path)) (copied : Copied)
      (fs2 : FS) (c2 : Copied) (e : Err),
      copyReqLoop lp filt fs c2o copied items = (fs2, c2, .error e) → e ≠ .preexistingLibDir := by
  intro items
  induction items with
  | nil =>
      intro fs c2o copied fs2 c2 e h
      injection h with h1 h2
      injection h2 with h3 h4
      injection h4
  | cons kv rest ih =>
      intro fs c2o copied fs2 c2 e h
      obtain ⟨req, rs⟩ := kv
      unfold copyReqLoop at h
      split at h
      · exact ih _ _ _ _ _ _ h
      · split at h
        · exact ih _ _ _ _ _ _ h
        · split at h
          · rename_i g2 e1 heq
            injection h with h1 h2
            injection h2 with h3 h4
            injection h4 with h5
            subst h5
            exact rewriteList_no_pre _ _ _ _ _ _ heq
          · rename_i g2 u heq
            split at h
            · split at h
              · rename_i e1 hun
                injection h with h1 h2
                injection h2 with h3 h4
                injection h4 with h5
                subst h5
                exact union_no_pre hun
              · exact ih _ _ _ _ _ _ h
            · split at h
              · rename_i e1 hcp
                injection h with h1 h2
                injection h2 with h3 h4
                injection h4 with h5
                subst h5
                exact copy2_no_pre hcp
              · exact ih _ _ _ _ _ _ h

lemma copy_required_pass_no_pre {fs : FS} {lp : Path} {filt : Option (Ref → Bool)}
    {copied : Copied} {fs2 : FS} {c2 : Copied} {e : Err}
    (h : copy_required_pass fs lp filt copied = (fs2, c2, .error e)) :
    e ≠ .preexistingLibDir := by
  unfold copy_required_pass at h
  exact copyReqLoop_no_pre _ _ _ _ _ _ _ _ _ h

lemma copy_recurseN_no_pre (lp : Path) (filt : Option (Ref → Bool)) :
    ∀ (fs : FS) (copied : Copied) (e : Err),
      (copy_recurseN lp filt fs copied).2.2 = .error e → e ≠ .preexistingLibDir := by
  suffices H : ∀ (n : Nat) (fs : FS) (copied : Copied), crMeasure fs copied = n →
      ∀ (e : Err), (copy_recurseN lp filt fs copied).2.2 = .error e →
        e ≠ .preexistingLibDir from
    fun fs copied e h => H (crMeasure fs copied) fs copied rfl e h
  intro n
  induction n using Nat.strong_induction_on with
  | _ n ih =>
      intro fs copied hm e h
      rcases hpass : copy_required_pass fs lp filt copied with ⟨fs2, c2, r⟩
      cases r with
      | error e0 =>
          rw [copy_recurseN_error hpass] at h
          have h' : Except.error e0 = Except.error e := h
          injection h' with h2
          subst h2
          exact copy_required_pass_no_pre hpass
      | ok u =>
          by_cases hlen : c2.length = copied.length
          · rw [copy_recurseN_stop hpass hlen] at h
            have h' : Except.ok c2 = Except.error e := h
            injection h'
          · rw [copy_recurseN_continue hpass hlen] at h
            have h' : (copy_recurseN lp filt fs2 c2).2.2 = Except.error e := h
            exact ih (crMeasure fs2 c2) (hm ▸ copyRequired_measure hpass hlen)
              fs2 c2 rfl e h'

lemma delocate_path_eq (fs : FS) (tp lp : Path) (lf : Option (Path → Bool))
    (cf : Option (Ref → Bool)) :
    delocate_path fs tp lp lf cf
      = (match delocate_tree_libs (if fs.existsPath lp then fs else makedirs fs lp)
            (match cf with
              | some f =>
                  (tree_libs (if fs.existsPath lp then fs else makedirs fs lp) tp lf).filter
                    fun kv => f kv.1
              | none => tree_libs (if fs.existsPath lp then fs else makedirs fs lp) tp lf)
            lp tp with
          | (fs2, .error e) => (fs2, .error e)
          | (fs2, .ok copied) => copy_recurse fs2 lp cf copied) := rfl

lemma delocate_path_no_pre {fs : FS} {tp lp : Path} {lf : Option (Path → Bool)}
    {cf : Option (Ref → Bool)} {fs2 : FS} {e : Err}
    (h : delocate_path fs tp lp lf cf = (fs2, .error e)) : e ≠ .preexistingLibDir := by
  rw [delocate_path_eq] at h
  split at h
  · rename_i g2 e1 heq
    injection h with h1 h2
    injection h2 with h3
    subst h3
    exact delocate_tree_libs_no_pre heq
  · rename_i g2 copied heq
    unfold copy_recurse at h
    exact copy_recurseN_no_pre lp cf g2 copied e (by rw [h])

lemma mergeLibDict_no_pre :
    ∀ (d2 d1 : Copied) (e : Err), mergeLibDict d1 d2 = .error e → e ≠ .preexistingLibDir := by
  intro d2
  induction d2 with
  | nil => intro d1 e h; injection h
  | cons kv rest ih =>
      intro d1 e h
      obtain ⟨req, v⟩ := kv
      unfold mergeLibDict at h
      split at h
      · split at h
        · rename_i e1 hun
          injection h with h2
          subst h2
          exact union_no_pre hun
        · exact ih _ _ h
      · exact ih _ _ h

/-- C8.  The per-package step of `delocate_wheel` fails with the
`already exists in wheel` error exactly when the package's private
library directory existed before delocation of the package began and
delocating the package copied at least one library; when either
condition fails no such error arises from this package — no other
stage of the step (`delocate_path`, `os.listdir`, `_merge_lib_dict`)
can produce it. -/
theorem processPackage_preexisting_iff
    (sdir : String) (lf : Option (Path → Bool)) (cf : Option (Ref → Bool))
    (fs : FS) (acc : Copied) (pkg : Path) :
    (processPackage sdir lf cf fs acc pkg).2 = .error .preexistingLibDir
    ↔ (∃ fs2 copied, delocate_path fs pkg (pjoin pkg sdir) lf cf = (fs2, .ok copied)
        ∧ copied ≠ [] ∧ fs.existsPath (pjoin pkg sdir) = true) := by
  rcases hdp : delocate_path fs pkg (pjoin pkg sdir) lf cf with ⟨fs2, r⟩
  unfold processPackage
  cases r with
  | error e =>
      simp only [hdp]
      constructor
      · intro hL
        exfalso
        have he : e = Err.preexistingLibDir := by
          have h' : Except.error e = Except.error Err.preexistingLibDir := hL
          injection h'
        exact delocate_path_no_pre hdp he
      · rintro ⟨fs2', copied, hdp', -, -⟩
        injection hdp' with h1 h2
        injection h2
  | ok copied =>
      simp only [hdp]
      by_cases hc : copied ≠ [] ∧ fs.existsPath (pjoin pkg sdir) = true
      · rw [if_pos hc]
        constructor
        · intro _
          exact ⟨fs2, copied, rfl, hc.1, hc.2⟩
        · intro _
          rfl
      · rw [if_neg hc]
        constructor
        · intro hL
          exfalso
          by_cases hex : fs2.existsPath (pjoin pkg sdir) = false
          · rw [if_pos hex] at hL
            have h' : Except.error Err.listdirMissing
                = Except.error Err.preexistingLibDir := hL
            injection h' with hh
            exact absurd hh (by decide)
          · rw [if_neg hex] at hL
            rcases hm : mergeLibDict acc copied with e1 | acc2
            · simp only [hm] at hL
              have h' : Except.error e1 = Except.error Err.preexistingLibDir := hL
              injection h' with hh
              exact mergeLibDict_no_pre _ _ _ hm hh
            · simp only [hm] at hL
              have h' : Except.ok acc2 = Except.error Err.preexistingLibDir := hL
              injection h'
        · rintro ⟨fs2', copied', hdp', hne, hex⟩
          injection hdp' with h1 h2
          injection h2 with h3
          subst h3
          exact absurd ⟨hne, hex⟩ hc

lemma FS_eq : ∀ {a b : FS}, a.files = b.files → a.dirs = b.dirs → a.links = b.links → a = b := by
  intro a b h1 h2 h3
  obtain ⟨af, ad, al⟩ := a
  obtain ⟨bf, bd, bl⟩ := b
  have e1 : af = bf := h1
  have e2 : ad = bd := h2
  have e3 : al = bl := h3
  subst e1
  subst e2
  subst e3
  rfl

lemma isPre_self : ∀ (p : Path), isPre p p = true := by
  intro p
  induction p with
  | nil => rfl
  | cons a as ih =>
      unfold isPre
      rw [if_pos rfl]
      exact ih

lemma planTree_at (g : FS) (root : Path) :
    ∀ (l : List (Ref × Inner)) (bn : List String) (cp : List (Path × Inner)) (dl : List Path),
      (∀ e ∈ l, ∃ s, e.1 = Ref.at_ s) →
      planTree g root l bn cp dl = .ok (cp, dl) := by
  intro l
  induction l with
  | nil => intro bn cp dl h; rfl
  | cons kv rest ih =>
      intro bn cp dl h
      obtain ⟨req, rs⟩ := kv
      obtain ⟨s, hs⟩ := h (req, rs) (List.mem_cons_self _ _)
      have hreq : req = Ref.at_ s := hs
      subst hreq
      unfold planTree
      exact ih bn cp dl (fun e he => h e (List.mem_cons_of_mem _ he))

lemma delocate_tree_libs_at (g : FS) (ld : LibDict) (lp tp : Path)
    (h : ∀ kv ∈ ld, ∃ s, kv.1 = Ref.at_ s) :
    delocate_tree_libs g ld lp tp = (g, .ok []) := by
  have hplan : planTree g tp ld [] [] [] = .ok ([], []) := planTree_at g tp ld [] [] [] h
  unfold delocate_tree_libs
  simp only [hplan]
  rfl

lemma copyReqLoop_skipOrAt (lp : Path) (filt : Option (Ref → Bool)) :
    ∀ (items : List (Ref × Inner)) (fs : FS) (c2o : List (Path × Path)) (copied : Copied),
      (∀ e ∈ items, filtSkip filt e.1 = true ∨ ∃ s, e.1 = Ref.at_ s) →
      copyReqLoop lp filt fs c2o copied items = (fs, copied, .ok ()) := by
  intro items
  induction items with
  | nil => intro fs c2o copied h; rfl
  | cons kv rest ih =>
      intro fs c2o copied h
      obtain ⟨req, rs⟩ := kv
      rcases h (req, rs) (List.mem_cons_self _ _) with hskip | ⟨s, hs⟩
      · unfold copyReqLoop
        rw [if_pos hskip]
        exact ih fs c2o copied (fun e he => h e (List.mem_cons_of_mem _ he))
      · have hreq : req = Ref.at_ s := hs
        subst hreq
        unfold copyReqLoop
        by_cases hf : filtSkip filt (Ref.at_ s) = true
        · rw [if_pos hf]
          exact ih fs c2o copied (fun e he => h e (List.mem_cons_of_mem _ he))
        · rw [if_neg hf]
          exact ih fs c2o copied (fun e he => h e (List.mem_cons_of_mem _ he))

lemma delocate_path_alreadyDone (fs : FS) (tp lp : Path) (lf : Option (Path → Bool))
    (f : Ref → Bool)
    (hlinks : fs.links = [])
    (H : ∀ pf ∈ fs.files, ∀ n ∈ pf.2.names, n.isAt = true ∨ f n = false) :
    delocate_path fs tp lp lf (some f)
      = ((if fs.existsPath lp then fs else makedirs fs lp), .ok []) := by
  rw [delocate_path_eq_some]
  have hGf : (if fs.existsPath lp then fs else makedirs fs lp).files = fs.files := by
    by_cases hex : fs.existsPath lp
    · rw [if_pos hex]
    · rw [if_neg hex]
      rfl
  have hGl : (if fs.existsPath lp then fs else makedirs fs lp).links = fs.links := by
    by_cases hex : fs.existsPath lp
    · rw [if_pos hex]
    · rw [if_neg hex]
      rfl
  have hkey : ∀ (start : Path) (lfoo : Option (Path → Bool)),
      ∀ kv ∈ tree_libs (if fs.existsPath lp then fs else makedirs fs lp) start lfoo,
        (∃ s, kv.1 = Ref.at_ s) ∨ (∃ q, kv.1 = Ref.abs q ∧ f (Ref.abs q) = false) := by
    intro start lfoo kv hkv
    rcases kv with ⟨req, rs⟩
    cases req with
    | at_ s => exact Or.inl ⟨s, rfl⟩
    | abs k =>
        right
        have hk : k ∈ nonAtIds (if fs.existsPath lp then fs else makedirs fs lp) :=
          tree_libs_abs_key_mem _ start lfoo k rs hkv
        rw [mem_nonAtIds] at hk
        obtain ⟨pf, hpf, q, hq, hkq⟩ := hk
        have hfq : f (Ref.abs q) = false := by
          rcases H pf (hGf ▸ hpf) (Ref.abs q) hq with hat | hfalse
          · exact absurd hat (by simp [Ref.isAt])
          · exact hfalse
        have hrq : realpath (if fs.existsPath lp then fs else makedirs fs lp) q = q := by
          unfold realpath
          rw [hGl, hlinks]
          rfl
        exact ⟨k, rfl, by rw [hkq, hrq]; exact hfq⟩
  have hld2 : ∀ kv ∈ (tree_libs (if fs.existsPath lp then fs else makedirs fs lp) tp lf).filter
      (fun kv => f kv.1), ∃ s, kv.1 = Ref.at_ s := by
    intro kv hkv
    rw [List.mem_filter] at hkv
    obtain ⟨hmem, hf⟩ := hkv
    rcases hkey tp lf kv hmem with h | ⟨q, hq, hfq⟩
    · exact h
    · exfalso
      rw [hq] at hf
      rw [hfq] at hf
      exact absurd hf (by decide)
  have hdtl := delocate_tree_libs_at (if fs.existsPath lp then fs else makedirs fs lp)
    ((tree_libs (if fs.existsPath lp then fs else makedirs fs lp) tp lf).filter
      fun kv => f kv.1) lp tp hld2
  simp only [hdtl]
  have hcond : ∀ e ∈ tree_libs (if fs.existsPath lp then fs else makedirs fs lp) lp none,
      filtSkip (some f) e.1 = true ∨ ∃ s, e.1 = Ref.at_ s := by
    intro e he
    rcases hkey lp none e he with h | ⟨q, hq, hfq⟩
    · exact Or.inr h
    · left
      rw [hq]
      simp [filtSkip, hfq]
  have hpass : copy_required_pass (if fs.existsPath lp then fs else makedirs fs lp) lp
      (some f) [] = ((if fs.existsPath lp then fs else makedirs fs lp), [], .ok ()) := by
    unfold copy_required_pass
    exact copyReqLoop_skipOrAt lp (some f)
      (tree_libs (if fs.existsPath lp then fs else makedirs fs lp) lp none)
      (if fs.existsPath lp then fs else makedirs fs lp) [] [] hcond
  have hN := copy_recurseN_stop hpass rfl
  unfold copy_recurse
  rw [hN]

lemma processPackage_noop (sdir : String) (lf : Option (Path → Bool)) (f : Ref → Bool)
    (fs : FS) (acc : Copied) (pkg : Path)
    (hlinks : fs.links = [])
    (H : ∀ pf ∈ fs.files, ∀ n ∈ pf.2.names, n.isAt = true ∨ f n = false)
    (hpk : (fs.existsPath (pjoin pkg sdir) = true ∧ dirEmpty fs (pjoin pkg sdir) = false)
      ∨ (fs.existsPath (pjoin pkg sdir) = false
         ∧ (∀ d ∈ fs.dirs, isPre (pjoin pkg sdir) d = false)
         ∧ (∀ pf ∈ fs.files, isPre (pjoin pkg sdir) pf.1 = false))) :
    processPackage sdir lf (some f) fs acc pkg = (fs, .ok acc) := by
  have hdp := delocate_path_alreadyDone fs pkg (pjoin pkg sdir) lf f hlinks H
  unfold processPackage
  rcases hpk with ⟨hex, hne⟩ | ⟨hex, hd, hf2⟩
  · rw [if_pos hex] at hdp
    simp only [hdp]
    rw [if_neg (by simp)]
    rw [if_neg (by simp [hex])]
    show ((if dirEmpty fs (pjoin pkg sdir) = true then rmtree fs (pjoin pkg sdir) else fs),
        Except.ok acc) = (fs, Except.ok acc)
    rw [if_neg (by simp [hne])]
  · rw [if_neg (by simp [hex])] at hdp
    simp only [hdp]
    rw [if_neg (by simp)]
    have hex2 : (makedirs fs (pjoin pkg sdir)).existsPath (pjoin pkg sdir) = true := by
      unfold FS.existsPath
      rw [Bool.or_eq_true]
      right
      have hrl : realpath (makedirs fs (pjoin pkg sdir)) (pjoin pkg sdir) = pjoin pkg sdir := by
        unfold realpath
        have hml : (makedirs fs (pjoin pkg sdir)).links = fs.links := rfl
        rw [hml, hlinks]
        rfl
      rw [hrl]
      simp [makedirs]
    rw [if_neg (by simp [hex2])]
    have hde : dirEmpty (makedirs fs (pjoin pkg sdir)) (pjoin pkg sdir) = true := by
      unfold dirEmpty
      rw [Bool.and_eq_true]
      constructor
      · have hf' : (makedirs fs (pjoin pkg sdir)).files = fs.files := rfl
        have hfil : (fs.files.filter fun f0 =>
            isPre (pjoin pkg sdir) f0.1 && decide (f0.1 ≠ pjoin pkg sdir)) = [] := by
          rw [List.filter_eq_nil_iff]
          intro x hx
          simp [hf2 x hx]
        rw [hf', hfil]
        rfl
      · have hd' : (makedirs fs (pjoin pkg sdir)).dirs = fs.dirs ++ [pjoin pkg sdir] := rfl
        have hfil : ((fs.dirs ++ [pjoin pkg sdir]).filter fun d =>
            isPre (pjoin pkg sdir) d && decide (d ≠ pjoin pkg sdir)) = [] := by
          rw [List.filter_eq_nil_iff]
          intro d hdm
          rcases List.mem_append.mp hdm with hmem | hmem
          · simp [hd d hmem]
          · have hdd : d = pjoin pkg sdir := by simpa using hmem
            subst hdd
            simp
        rw [hd', hfil]
        rfl
    show ((if dirEmpty (makedirs fs (pjoin pkg sdir)) (pjoin pkg sdir) = true
          then rmtree (makedirs fs (pjoin pkg sdir)) (pjoin pkg sdir)
          else makedirs fs (pjoin pkg sdir)),
        Except.ok acc) = (fs, Except.ok acc)
    rw [if_pos hde]
    have hrm : rmtree (makedirs fs (pjoin pkg sdir)) (pjoin pkg sdir) = fs := by
      apply FS_eq
      · show ((makedirs fs (pjoin pkg sdir)).files.filter
            fun f0 => !isPre (pjoin pkg sdir) f0.1) = fs.files
        have hf' : (makedirs fs (pjoin pkg sdir)).files = fs.files := rfl
        rw [hf', List.filter_eq_self]
        intro x hx
        simp [hf2 x hx]
      · show ((makedirs fs (pjoin pkg sdir)).dirs.filter
            fun d => !isPre (pjoin pkg sdir) d) = fs.dirs
        have hd' : (makedirs fs (pjoin pkg sdir)).dirs = fs.dirs ++ [pjoin pkg sdir] := rfl
        rw [hd', List.filter_append]
        have h2a : (fs.dirs.filter fun d => !isPre (pjoin pkg sdir) d) = fs.dirs := by
          rw [List.filter_eq_self]
          intro d hdm
          simp [hd d hdm]
        have h2b : ([pjoin pkg sdir].filter fun d => !isPre (pjoin pkg sdir) d) = [] := by
          simp [isPre_self]
        rw [h2a, h2b, List.append_nil]
      · rfl
    rw [hrm]

/-- C9.  Re-running the bundler in place on an already-delocated wheel
is a safe no-op: when every recorded install name in the extracted
tree is an `@`-reference or is rejected by the copy filter, and each
package's library directory either already exists non-empty or is
wholly absent, `delocate_wheel` copies nothing, regenerates no record,
repacks nothing, and returns the world of archives exactly unchanged
(the record is rewritten and the archive repacked only when at least
one library was copied or the output path differs from the input). -/
theorem delocate_wheel_inplace_noop
    (w : World) (iw : Path) (sdir : String) (lf : Option (Path → Bool)) (f : Ref → Bool)
    (fs0 : FS)
    (hz : zip2dir w iw = .ok fs0)
    (hlinks : fs0.links = [])
    (H : ∀ pf ∈ fs0.files, ∀ n ∈ pf.2.names, n.isAt = true ∨ f n = false)
    (hpk : ∀ pkg ∈ find_package_dirs fs0,
      (fs0.existsPath (pjoin pkg sdir) = true ∧ dirEmpty fs0 (pjoin pkg sdir) = false)
      ∨ (fs0.existsPath (pjoin pkg sdir) = false
         ∧ (∀ d ∈ fs0.dirs, isPre (pjoin pkg sdir) d = false)
         ∧ (∀ pf ∈ fs0.files, isPre (pjoin pkg sdir) pf.1 = false))) :
    delocate_wheel w iw none sdir lf (some f) = (w, .ok []) := by
  have hpps : ∀ (pkgs : List Path) (acc : Copied),
      (∀ pkg ∈ pkgs, pkg ∈ find_package_dirs fs0) →
      processPackages sdir lf (some f) fs0 acc pkgs = (fs0, .ok acc) := by
    intro pkgs
    induction pkgs with
    | nil => intro acc hsub; rfl
    | cons pkg rest ih =>
        intro acc hsub
        have hstep := processPackage_noop sdir lf f fs0 acc pkg hlinks H
          (hpk pkg (hsub pkg (List.mem_cons_self _ _)))
        unfold processPackages
        simp only [hstep]
        exact ih acc (fun q hq => hsub q (List.mem_cons_of_mem _ hq))
  unfold delocate_wheel
  simp only [hz]
  simp only [hpps (find_package_dirs fs0) [] (fun q hq => hq)]
  rw [if_neg (by simp)]
  rw [if_neg (by simp)]

/-- An already-delocated wheel: `pkg/mod.so` points at its vendored
copy through a loader-relative reference, the copy depends only on a
system library rejected by the default filter, and the library
directory `pkg/.dylibs` exists and is non-empty. -/
def fsW9 : FS :=
  FS.mk
    [(["pkg", "__init__.py"], ⟨[], 0⟩),
      (["pkg", "mod.so"], ⟨[Ref.at_ ["loader_path", ".dylibs", "liba.dylib"]], 1⟩),
      (["pkg", ".dylibs", "liba.dylib"], ⟨[Ref.abs ["usr", "lib", "libSystem.dylib"]], 2⟩)]
    [["pkg"], ["pkg", ".dylibs"]] []

def w9 : World := [(["dist", "demo.whl"], fsW9)]

theorem delocate_wheel_inplace_noop_witness :
    (zip2dir w9 ["dist", "demo.whl"] = .ok fsW9
      ∧ fsW9.links = []
      ∧ (∀ pf ∈ fsW9.files, ∀ n ∈ pf.2.names, n.isAt = true ∨ filter_system_libs n = false)
      ∧ (∀ pkg ∈ find_package_dirs fsW9,
          (fsW9.existsPath (pjoin pkg ".dylibs") = true
            ∧ dirEmpty fsW9 (pjoin pkg ".dylibs") = false)
          ∨ (fsW9.existsPath (pjoin pkg ".dylibs") = false
             ∧ (∀ d ∈ fsW9.dirs, isPre (pjoin pkg ".dylibs") d = false)
             ∧ (∀ pf ∈ fsW9.files, isPre (pjoin pkg ".dylibs") pf.1 = false))))
    ∧ delocate_wheel w9 ["dist", "demo.whl"] none ".dylibs" (some dylibs_only)
        (some filter_system_libs) = (w9, .ok []) :=
  ⟨⟨by decide, by decide, by decide, by decide⟩,
    delocate_wheel_inplace_noop w9 ["dist", "demo.whl"] ".dylibs" (some dylibs_only)
      filter_system_libs fsW9 (by decide) (by decide) (by decide) (by decide)⟩

/-- C10.  Whenever `delocate_wheel` fails — a missing archive, any
per-package failure (planning, copying, rewriting, the pre-existing
library directory conflict, the index merge) or a record-shape error —
the world of archives is returned exactly unchanged: every
intermediate state lives in the scoped temporary directory, and the
output archive is written (`dir2zip`) only as the final step of a
successful run. -/
theorem delocate_wheel_error_world_unchanged
    (w : World) (iw : Path) (ow : Option Path) (sdir : String)
    (lf : Option (Path → Bool)) (cf : Option (Ref → Bool)) (e : Err)
    (h : (delocate_wheel w iw ow sdir lf cf).2 = .error e) :
    (delocate_wheel w iw ow sdir lf cf).1 = w := by
  cases hz : zip2dir w iw with
  | error e0 =>
      have heq : delocate_wheel w iw ow sdir lf cf = (w, .error e0) := by
        unfold delocate_wheel
        simp only [hz]
      rw [heq]
  | ok fs0 =>
      rcases hpp : processPackages sdir lf cf fs0 [] (find_package_dirs fs0) with ⟨fs1, r1⟩
      cases r1 with
      | error e1 =>
          have heq : delocate_wheel w iw ow sdir lf cf = (w, .error e1) := by
            unfold delocate_wheel
            simp only [hz, hpp]
          rw [heq]
      | ok ac =>
          by_cases hlen : ac.length ≠ 0
          · cases hrr : rewrite_record fs1 with
            | error e2 =>
                have heq : delocate_wheel w iw ow sdir lf cf = (w, .error e2) := by
                  unfold delocate_wheel
                  simp only [hz, hpp]
                  rw [if_pos hlen]
                  simp only [hrr]
                rw [heq]
            | ok fs2 =>
                have heq : delocate_wheel w iw ow sdir lf cf
                    = (dir2zip w (ow.getD iw) fs2, .ok ac) := by
                  unfold delocate_wheel
                  simp only [hz, hpp]
                  rw [if_pos hlen]
                  simp only [hrr]
                rw [heq] at h
                exact absurd h (by simp)
          · by_cases how : ow.getD iw ≠ iw
            · have heq : delocate_wheel w iw ow sdir lf cf
                  = (dir2zip w (ow.getD iw) fs1, .ok ac) := by
                unfold delocate_wheel
                simp only [hz, hpp]
                rw [if_neg hlen, if_pos how]
              rw [heq] at h
              exact absurd h (by simp)
            · have heq : delocate_wheel w iw ow sdir lf cf = (w, .ok ac) := by
                unfold delocate_wheel
                simp only [hz, hpp]
                rw [if_neg hlen, if_neg how]
              rw [heq] at h
              exact absurd h (by simp)

/-- A wheel whose only package depends on an external library that
does not exist: delocation fails mid-run with `MissingLibrary`. -/
def fsW10 : FS :=
  FS.mk
    [(["pkg", "__init__.py"], ⟨[], 0⟩),
      (["pkg", "mod.so"], ⟨[Ref.abs ["opt", "libx.dylib"]], 1⟩)]
    [["pkg"]] []

def w10 : World := [(["dist", "demo.whl"], fsW10)]

theorem delocate_wheel_error_world_unchanged_witness :
    (delocate_wheel w10 ["dist", "demo.whl"] none ".dylibs" (some dylibs_only)
        (some filter_system_libs)).2 = .error .missingLibrary
    ∧ (delocate_wheel w10 ["dist", "demo.whl"] none ".dylibs" (some dylibs_only)
        (some filter_system_libs)).1 = w10 :=
  ⟨by decide,
    delocate_wheel_error_world_unchanged w10 ["dist", "demo.whl"] none ".dylibs"
      (some dylibs_only) (some filter_system_libs) .missingLibrary (by decide)⟩

end Delocate






